import Mathlib

/-!
Verification development for the stegos chain core.

The development shallowly embeds the Rust sources:
  * `Chain`    — `blockchain/src/blockchain.rs` (the `Blockchain` struct and its
                 `register_key_block` / `register_monetary_block` /
                 `output_by_hash` / `blocks_range` operations);
  * `SpecChain`— the micro-block apply/revert machine of spec §4.D (the revert
                 code is not part of the source tree, so it is modelled from the
                 specification text);
  * `NodeTx`   — `node/src/validation.rs` (`validate_transaction`);
  * `Wallet`   — `wallet/src/lib.rs` (`on_outputs_changed` and friends);
  * `Sealed`   — `wallet/src/lib.rs` (`SealedAccountService` request handling).

Machine integers (`i64`, `u64`) are modelled as `Int`/`Nat`; the configured
sizes in play are far below overflow so the sources never rely on wrapping.
Cryptographic hashes are modelled as `Nat` values produced by explicit hash
functions that are passed as parameters; no injectivity of hashing is assumed
anywhere.  The Pedersen-commitment group (`ECp` in the source) is modelled as
the free abelian group on the two generators `A` (value base, used by `fee_a`)
and `G` (blinding base), i.e. as `Int × Int`; every identity proved in this
model maps to the real curve group under the homomorphism sending `(a, g)` to
`a•A + g•G`.
-/

/-! ### Generic association-list maps

`HashMap` / `BTreeMap` state of the Rust code is modelled by association lists
queried through `lookupA`.  `removeA` removes a key, `setA` writes an
`Option`-valued binding (`none` = absent).  All map state is compared
extensionally through `lookupA` when the corresponding Rust comparison is
`HashMap` equality.
-/

def lookupA {κ α : Type} [DecidableEq κ] : List (κ × α) → κ → Option α
  | [], _ => none
  | kv :: rest, q => if kv.1 = q then some kv.2 else lookupA rest q

def removeA {κ α : Type} [DecidableEq κ] : List (κ × α) → κ → List (κ × α)
  | [], _ => []
  | kv :: rest, q => if kv.1 = q then removeA rest q else kv :: removeA rest q

def setA {κ α : Type} [DecidableEq κ] (xs : List (κ × α)) (k : κ) : Option α → List (κ × α)
  | none => removeA xs k
  | some v => (k, v) :: removeA xs k

instance exceptDecEq {ε α : Type} [DecidableEq ε] [DecidableEq α] :
    DecidableEq (Except ε α)
  | .ok a, .ok b =>
    if h : a = b then .isTrue (by rw [h])
    else .isFalse (fun hc => by cases hc; exact h rfl)
  | .ok _, .error _ => .isFalse (fun hc => Except.noConfusion hc)
  | .error _, .ok _ => .isFalse (fun hc => Except.noConfusion hc)
  | .error a, .error b =>
    if h : a = b then .isTrue (by rw [h])
    else .isFalse (fun hc => by cases hc; exact h rfl)

namespace Chain

/-! ### Curve / commitment arithmetic (`stegos_crypto`, consumed by the core)

`fee_a n` is the commitment to the clear scalar `n` under the value base, and
`gMulG g` is `g · G` (the Rust `gamma * (*G)`).  `Pt` is a compressed point: a
value that either decompresses to a group element or fails (`none`), matching
`Pt::decompress(...)?` in the source.
-/

abbrev ECp : Type := Int × Int

abbrev Fr : Type := Int

def ECp.inf : ECp := (0, 0)

def fee_a (n : Int) : ECp := (n, 0)

def gMulG (g : Fr) : ECp := (0, g)

/-! ### Outputs (`stegos_blockchain::output`, the two variants the core uses) -/

structure PaymentOutput where
  recipient : Nat
  /-- The compressed Pedersen value commitment `proof.vcmt`; `none` models a
  point on which `Pt::decompress` fails. -/
  vcmt : Option ECp
deriving DecidableEq

structure StakeOutput where
  recipient : Nat
  validator : Nat
  amount : Int
deriving DecidableEq

inductive Output where
  | paymentOutput (o : PaymentOutput)
  | stakeOutput (o : StakeOutput)
deriving DecidableEq

/-- The balance contribution of an output: `Pt::decompress(o.proof.vcmt)` for a
payment output (which can fail), `fee_a(o.amount)` for a stake output. -/
def Output.commitment : Output → Option ECp
  | .paymentOutput o => o.vcmt
  | .stakeOutput _o => some (fee_a _o.amount)

/-! ### Merkle tree of outputs

Modelled from the spec: `crate::merkle` is not under `src/`.  Spec §3/§9: a
tree with explicit leaf / inner / pruned nodes supporting `lookup(path)`,
`leafs()` and a destructive `prune(path)` that replaces the leaf at `path` by a
placeholder carrying the removed leaf's hash, keeping all other paths stable.
A path is the list of branch choices from the root (`false` = left).
-/

inductive MerkleTree where
  | leaf (o : Output)
  | prunedLeaf (h : Nat)
  | node (l r : MerkleTree)
deriving DecidableEq

abbrev MerklePath : Type := List Bool

def MerkleTree.lookup : MerkleTree → MerklePath → Option Output
  | .leaf o, [] => some o
  | .node l _, false :: p => l.lookup p
  | .node _ r, true :: p => r.lookup p
  | _, _ => none

def MerkleTree.prune (ho : Output → Nat) : MerkleTree → MerklePath → MerkleTree × Option Output
  | .leaf o, [] => (.prunedLeaf (ho o), some o)
  | .node l r, false :: p =>
    let res := MerkleTree.prune ho l p
    (.node res.1 r, res.2)
  | .node l r, true :: p =>
    let res := MerkleTree.prune ho r p
    (.node l res.1, res.2)
  | t, _ => (t, none)

/-- Undo a prune: put the leaf back at `path` (used by the spec-modelled
micro-block revert, spec §4.D). -/
def MerkleTree.restore : MerkleTree → MerklePath → Output → MerkleTree
  | .prunedLeaf _, [], o => .leaf o
  | .node l r, false :: p, o => .node (l.restore p o) r
  | .node l r, true :: p, o => .node l (r.restore p o)
  | t, _, _ => t

def MerkleTree.leafs : MerkleTree → List (Output × MerklePath)
  | .leaf o => [(o, [])]
  | .prunedLeaf _ => []
  | .node l r =>
    (l.leafs.map (fun op => (op.1, false :: op.2))) ++
      (r.leafs.map (fun op => (op.1, true :: op.2)))

/-! ### Blocks (`stegos_blockchain::block`) -/

structure BaseBlockHeader where
  version : Nat
  previous : Nat
  epoch : Nat
  timestamp : Nat
deriving DecidableEq

structure KeyBlockHeader where
  base : BaseBlockHeader
  leader : Nat
  facilitator : Nat
  /-- The `BTreeSet<secure::PublicKey>` of the block, as an ascending list. -/
  validators : List Nat
deriving DecidableEq

structure KeyBlock where
  header : KeyBlockHeader
deriving DecidableEq

structure MonetaryBlockHeader where
  base : BaseBlockHeader
  gamma : Fr
  monetary_adjustment : Int
deriving DecidableEq

structure MonetaryBlockBody where
  inputs : List Nat
  outputs : MerkleTree
deriving DecidableEq

structure MonetaryBlock where
  header : MonetaryBlockHeader
  body : MonetaryBlockBody
deriving DecidableEq

inductive Block where
  | keyBlock (b : KeyBlock)
  | monetaryBlock (b : MonetaryBlock)
deriving DecidableEq

/-- The hash functions of the embedding.  `Hash::digest` of an output hashes
the full output; `Hash::digest` of a block covers only its header (modelled
from the spec: §3/§6 require the block identifier to be stable under in-place
body pruning, which the commit path of `register_monetary_block` relies on).
No properties of these functions are assumed. -/
structure HashFn where
  out : Output → Nat
  keyH : KeyBlockHeader → Nat
  monH : MonetaryBlockHeader → Nat

def hashBlock (hf : HashFn) : Block → Nat
  | .keyBlock b => hf.keyH b.header
  | .monetaryBlock b => hf.monH b.header

/-! ### Escrow (`crate::escrow`)

Modelled from the spec (the escrow source is not under `src/`): §4.C, a map
`(validator, output_hash) → StakeRecord`.  `stake` inserts a record, `unstake`
removes it (the bonding-time refusal belongs to transaction validation and is
not consulted by the block-apply path, which ignores the result), `multiget`
sums the stakes per requested validator. -/

structure EscrowRecord where
  bonding_until : Nat
  amount : Int
deriving DecidableEq

abbrev Escrow : Type := List ((Nat × Nat) × EscrowRecord)

def Escrow.stakeOp (es : Escrow) (validator ohash : Nat) (bonding_until : Nat)
    (amount : Int) : Escrow :=
  ((validator, ohash), ⟨bonding_until, amount⟩) :: removeA es (validator, ohash)

def Escrow.unstakeOp (es : Escrow) (validator ohash : Nat) (_now : Nat) : Escrow :=
  removeA es (validator, ohash)

def Escrow.multiget (es : Escrow) (validators : List Nat) : List (Nat × Int) :=
  validators.map (fun v =>
    (v, (es.filter (fun kr => decide (kr.1.1 = v))).foldl (fun a kr => a + kr.2.amount) 0))

/-- Bonding period added to the block timestamp when a stake output is
registered (`crate::escrow::BONDING_TIME`; the concrete value is not in
`src/`, any fixed constant is faithful for the claims). -/
def BONDING_TIME : Nat := 86400

/-! ### Persisted block store (`crate::storage::ListDb`)

Modelled from the spec: §6, an append-only key-value store keyed by the block
height, iterated in ascending key order.  `dbInsert` keeps the list sorted by
key and replaces an existing binding; `dbIterStarting` yields the stored
blocks with key `≥ q` in storage order. -/

def dbInsert : List (Nat × Block) → Nat → Block → List (Nat × Block)
  | [], k, b => [(k, b)]
  | kv :: rest, k, b =>
    if k < kv.1 then (k, b) :: kv :: rest
    else if k = kv.1 then (k, b) :: rest
    else kv :: dbInsert rest k b

def dbIterStarting : List (Nat × Block) → Nat → List Block
  | [], _ => []
  | kv :: rest, q => if q ≤ kv.1 then kv.2 :: dbIterStarting rest q else dbIterStarting rest q

/-- `mkDb st bs` is the canonical store holding `bs` at consecutive keys
starting from `st`; reachable chains keep their store in this shape. -/
def mkDb : Nat → List Block → List (Nat × Block)
  | _, [] => []
  | st, b :: bs => (st, b) :: mkDb (st + 1) bs

/-! ### The `Blockchain` struct (`blockchain.rs`) -/

/-- `OutputKey`: where an unspent output lives (`blockchain.rs:50`). -/
structure OutputKey where
  block_id : Nat
  path : MerklePath
deriving DecidableEq

/-- The `Blockchain` struct (`blockchain.rs:58`).  `last_block_timestamp`
(a wall-clock `Instant`) and the metrics counters are not modelled. -/
structure Blockchain where
  database : List (Nat × Block)
  blocks : List Block
  block_by_hash : List (Nat × Nat)
  output_by_hash : List (Nat × OutputKey)
  escrow : Escrow
  leader : Nat
  facilitator : Nat
  validators : List (Nat × Int)
  epoch : Nat
  last_epoch_change : Nat
  created : ECp
  burned : ECp
  gamma : Fr
  monetary_adjustment : Int
deriving DecidableEq

/-- `Blockchain::with_db` over an empty database (`blockchain.rs:121`); the
leader/facilitator placeholders ("some fake key") are `0`. -/
def Blockchain.empty : Blockchain :=
  ⟨[], [], [], [], [], 0, 0, [], 0, 0, ECp.inf, ECp.inf, 0, 0⟩

/-- Errors surfaced (or panics raised) by block application.  The first five
constructors are the `BlockchainError` validation errors of the source; the
remaining constructors model `CryptoError` from point decompression and the
`panic!` / `assert!` / `unreachable!` aborts. -/
inductive BlockchainError where
  | previousHashMismatch (expected got : Nat)
  | blockHashCollision (h : Nat)
  | missingUTXO (h : Nat)
  | outputHashCollision (h : Nat)
  | invalidBlockBalance
  | cryptoError
  | panicGlobalBalance
  | panicAssert
  | panicUnreachable
deriving DecidableEq

/-- The five validation errors the source returns to the caller (as opposed to
process aborts). -/
def BlockchainError.isValidationError : BlockchainError → Prop
  | .previousHashMismatch _ _ => True
  | .blockHashCollision _ => True
  | .missingUTXO _ => True
  | .outputHashCollision _ => True
  | .invalidBlockBalance => True
  | _ => False

/-- `Blockchain::output_by_hash` (`blockchain.rs:209`): follow the index, then
look the leaf up in the producing block.  The source hits `unreachable!()` on a
non-monetary producing block and panics on an out-of-range block id; both are
impossible in reachable states and are mapped to `none` here. -/
def Blockchain.outputByHash (s : Blockchain) (output_hash : Nat) : Option Output :=
  match lookupA s.output_by_hash output_hash with
  | some k =>
    match s.blocks.get? k.block_id with
    | some (.monetaryBlock mb) => mb.body.outputs.lookup k.path
    | _ => none
  | none => none

/-- `Blockchain::blocks_range` (`blockchain.rs:252`): on a known
`starting_hash`, stream at most `count` blocks from the database starting at
the following height. -/
def Blockchain.blocksRange (s : Blockchain) (starting_hash : Nat) (count : Nat) :
    Option (List Block) :=
  match lookupA s.block_by_hash starting_hash with
  | some block_id => some ((dbIterStarting s.database (block_id + 1)).take count)
  | none => none

/-- The previous-hash check shared by both register functions
(`blockchain.rs:301`,`365`): compare against the digest of the last in-memory
block, skipped on an empty chain. -/
def checkPrevious (hf : HashFn) (blocks : List Block) (previous : Nat) :
    Option BlockchainError :=
  match blocks.getLast? with
  | none => none
  | some last =>
    if hashBlock hf last = previous then none
    else some (.previousHashMismatch (hashBlock hf last) previous)

/-- `Blockchain::register_key_block` (`blockchain.rs:295`).  The result pairs
the post-call state with the outcome: the Rust method mutates `self` in place,
and in particular the database insertion at the top of the method survives a
validation failure. -/
def Blockchain.registerKeyBlock (hf : HashFn) (s0 : Blockchain) (b : KeyBlock) :
    Blockchain × Except BlockchainError Unit :=
  let block_id := s0.blocks.length
  let s := { s0 with database := dbInsert s0.database block_id (Block.keyBlock b) }
  match checkPrevious hf s.blocks b.header.base.previous with
  | some e => (s, .error e)
  | none =>
    let this_hash := hashBlock hf (Block.keyBlock b)
    match lookupA s.block_by_hash this_hash with
    | some _ => (s, .error (.blockHashCollision this_hash))
    | none =>
      -- Commit.  The `panic!("Block hash collision")` guarding the map insert
      -- cannot fire after the check above; `assert_eq!(self.epoch + 1, ...)`
      -- is the next abort point.
      if s.epoch + 1 = b.header.base.epoch then
        ({ s with
            block_by_hash := (this_hash, block_id) :: s.block_by_hash
            epoch := s.epoch + 1
            last_epoch_change := s.blocks.length
            leader := b.header.leader
            facilitator := b.header.facilitator
            validators := s.escrow.multiget b.header.validators
            blocks := s.blocks ++ [Block.keyBlock b] }, .ok ())
      else (s, .error .panicAssert)

/-- The input pass of `register_monetary_block` (`blockchain.rs:386`): resolve
every input through the UTXO index, re-check its digest
(`assert_eq!(Hash::digest(output), *output_hash)`), and accumulate the burned
commitment. -/
def computeBurned (hf : HashFn) (s : Blockchain) : List Nat → Except BlockchainError ECp
  | [] => .ok ECp.inf
  | h :: rest =>
    match lookupA s.output_by_hash h with
    | none => .error (.missingUTXO h)
    | some k =>
      match s.blocks.get? k.block_id with
      | some (.monetaryBlock mb) =>
        match mb.body.outputs.lookup k.path with
        | some o =>
          if hf.out o = h then
            match o.commitment with
            | some c => (computeBurned hf s rest).map (fun acc => c + acc)
            | none => .error .cryptoError
          else .error .panicAssert
        | none => .error .panicUnreachable
      | _ => .error .panicUnreachable

/-- The output pass of `register_monetary_block` (`blockchain.rs:419`): each
leaf's hash must be absent from the UTXO index, its path is collected, and the
created commitment is accumulated. -/
def checkOutputs (hf : HashFn) (s : Blockchain) :
    List (Output × MerklePath) → Except BlockchainError (ECp × List (Nat × MerklePath))
  | [] => .ok (ECp.inf, [])
  | (o, p) :: rest =>
    let h := hf.out o
    match lookupA s.output_by_hash h with
    | some _ => .error (.outputHashCollision h)
    | none =>
      match o.commitment with
      | some c => (checkOutputs hf s rest).map (fun acc => (c + acc.1, (h, p) :: acc.2))
      | none => .error .cryptoError

/-- The spend loop of the commit phase (`blockchain.rs:467`): remove each input
from the index and prune its leaf in place, collecting the pruned outputs.
`none` models the `unreachable!()` aborts. -/
def pruneInputs (hf : HashFn) :
    List Block → List (Nat × OutputKey) → List Nat →
      Option (List Block × List (Nat × OutputKey) × List Output)
  | blocks, index, [] => some (blocks, index, [])
  | blocks, index, h :: rest =>
    match lookupA index h with
    | none => none
    | some k =>
      match blocks.get? k.block_id with
      | some (.monetaryBlock mb) =>
        match mb.body.outputs.prune hf.out k.path with
        | (tree, some o) =>
          let blocks := blocks.set k.block_id
            (Block.monetaryBlock { mb with body := { mb.body with outputs := tree } })
          match pruneInputs hf blocks (removeA index h) rest with
          | some (bs, ix, os) => some (bs, ix, o :: os)
          | none => none
        | (_, none) => none
      | _ => none

/-- The registration loop of the commit phase (`blockchain.rs:491`): insert
every new output under the fresh block id; an occupied slot is the
`unreachable!()` abort. -/
def insertOutputs (block_id : Nat) :
    List (Nat × OutputKey) → List (Nat × MerklePath) → Option (List (Nat × OutputKey))
  | index, [] => some index
  | index, (h, p) :: rest =>
    match lookupA index h with
    | some _ => none
    | none => insertOutputs block_id ((h, ⟨block_id, p⟩) :: index) rest

/-- Escrow update for pruned inputs (`blockchain.rs:515`). -/
def unstakePruned (hf : HashFn) (es : Escrow) (now : Nat) : List Output → Escrow
  | [] => es
  | .stakeOutput o :: rest =>
    unstakePruned hf (es.unstakeOp o.validator (hf.out (Output.stakeOutput o)) now) now rest
  | .paymentOutput _ :: rest => unstakePruned hf es now rest

/-- Escrow update for newly registered outputs (`blockchain.rs:524`). -/
def stakeNew (hf : HashFn) (es : Escrow) (bonding : Nat) : List Output → Escrow
  | [] => es
  | .stakeOutput o :: rest =>
    stakeNew hf (es.stakeOp o.validator (hf.out (Output.stakeOutput o)) bonding o.amount)
      bonding rest
  | .paymentOutput _ :: rest => stakeNew hf es bonding rest

/-- `Blockchain::register_monetary_block` (`blockchain.rs:355`).  As with the
key-block path, the block is written to the database before any check runs, so
the store retains it on a validation failure; all in-memory fields are only
written in the commit phase. -/
def Blockchain.registerMonetaryBlock (hf : HashFn) (s0 : Blockchain) (b : MonetaryBlock)
    (current_timestamp : Nat) :
    Blockchain × Except BlockchainError (List Output × List Output) :=
  let block_id := s0.blocks.length
  let s := { s0 with database := dbInsert s0.database block_id (Block.monetaryBlock b) }
  match checkPrevious hf s.blocks b.header.base.previous with
  | some e => (s, .error e)
  | none =>
    let this_hash := hashBlock hf (Block.monetaryBlock b)
    match lookupA s.block_by_hash this_hash with
    | some _ => (s, .error (.blockHashCollision this_hash))
    | none =>
      match computeBurned hf s b.body.inputs with
      | .error e => (s, .error e)
      | .ok burned =>
        match checkOutputs hf s b.body.outputs.leafs with
        | .error e => (s, .error e)
        | .ok (created, outputs_pathes) =>
          -- Local block balance (`blockchain.rs:440`).
          if fee_a b.header.monetary_adjustment + burned - created =
              gMulG b.header.gamma then
            -- Global balance on the candidate accumulators (`blockchain.rs:449`).
            if fee_a (s.monetary_adjustment + b.header.monetary_adjustment) +
                (s.burned + burned) - (s.created + created) =
                gMulG (s.gamma + b.header.gamma) then
              match pruneInputs hf s.blocks s.output_by_hash b.body.inputs with
              | none => (s, .error .panicUnreachable)
              | some (blocks1, index1, pruned) =>
                match insertOutputs block_id index1 outputs_pathes with
                | none => (s, .error .panicUnreachable)
                | some index2 =>
                  -- `block.body.inputs.clear()` before the push.
                  let bPruned : MonetaryBlock :=
                    { b with body := { b.body with inputs := [] } }
                  let outputs := b.body.outputs.leafs.map (fun op => op.1)
                  ({ s with
                      blocks := blocks1 ++ [Block.monetaryBlock bPruned]
                      block_by_hash := (this_hash, block_id) :: s.block_by_hash
                      output_by_hash := index2
                      escrow :=
                        stakeNew hf (unstakePruned hf s.escrow current_timestamp pruned)
                          (b.header.base.timestamp + BONDING_TIME) outputs
                      created := s.created + created
                      burned := s.burned + burned
                      gamma := s.gamma + b.header.gamma
                      monetary_adjustment :=
                        s.monetary_adjustment + b.header.monetary_adjustment },
                    .ok (pruned, outputs))
            else (s, .error .panicGlobalBalance)
          else (s, .error .invalidBlockBalance)

/-- Invariant I2 of the spec: the global monetary balance of the
accumulators. -/
def globalBalance (s : Blockchain) : Prop :=
  fee_a s.monetary_adjustment + s.burned - s.created = gMulG s.gamma

/-- Resolve a list of input hashes through `output_by_hash`
(`outputs_by_hashes` without the error wrapper); used to state the
specification-side balance sums. -/
def Blockchain.resolveInputs (s : Blockchain) : List Nat → Option (List Output)
  | [] => some []
  | h :: rest =>
    match s.outputByHash h with
    | some o => (s.resolveInputs rest).map (fun os => o :: os)
    | none => none

/-- The specification-side commitment sum: `vcmt` per payment output,
`fee_a(amount)` per stake output; `none` when some payment commitment fails
to decompress. -/
def sumCommitments : List Output → Option ECp
  | [] => some ECp.inf
  | o :: rest =>
    match o.commitment with
    | some c => (sumCommitments rest).map (fun acc => c + acc)
    | none => none

/-- Chain states reachable from the empty chain by successful block
applications. -/
inductive Reachable (hf : HashFn) : Blockchain → Prop
  | init : Reachable hf Blockchain.empty
  | keyStep (s : Blockchain) (b : KeyBlock) :
      Reachable hf s → (s.registerKeyBlock hf b).2 = .ok () →
      Reachable hf (s.registerKeyBlock hf b).1
  | monStep (s : Blockchain) (b : MonetaryBlock) (ts : Nat)
      (v : List Output × List Output) :
      Reachable hf s → (s.registerMonetaryBlock hf b ts).2 = .ok v →
      Reachable hf (s.registerMonetaryBlock hf b ts).1

end Chain

namespace SpecChain

/-!
### Micro-block apply / revert (spec §4.D)

Modelled from the spec: the revertible micro-block machinery (`apply_micro`,
`revert_micro`, `RevertedMicroBlock`) is described in §4.D but its code is not
under `src/` (the `blockchain.rs` present there predates it).  `apply_micro`
is "structurally identical" to the monetary-block application but reversible:
per §4.D it emits the pruned-output hashes and the recovered-input outputs,
and a revert must undo the index updates, the tree pruning, the escrow
stake/unstake calls and the accumulator updates.  To make those undos
possible, each applied micro block carries an undo log recording, in operation
order, every map write with the value it overwrote, every pruned leaf with its
location, and the per-block burned/created sums.

Outputs, Merkle trees, index keys, escrow records and the commitment group are
shared with the `Chain` embedding.
-/

open Chain (ECp Output OutputKey MerkleTree MerklePath EscrowRecord fee_a gMulG)

/-- A micro (or macro) block body as far as the chain state engine is
concerned; `previous` stands for the `BaseHeader` linkage. -/
structure MicroBlock where
  previous : Nat
  inputs : List Nat
  outputs : MerkleTree
  gamma : Int
  monetary_adjustment : Int
  timestamp : Nat
deriving DecidableEq

/-- One consumed input: its hash, its former index entry, and the leaf that
was pruned from the producing block. -/
structure PrunedEntry where
  ohash : Nat
  key : OutputKey
  output : Output
deriving DecidableEq

/-- The undo log stored with an applied micro block (see the section
comment). `ixJournal`/`esJournal` list `(key, overwritten value)` pairs in
operation order. -/
structure UndoLog where
  prunedList : List PrunedEntry
  ixJournal : List (Nat × Option OutputKey)
  esJournal : List ((Nat × Nat) × Option EscrowRecord)
  burnedB : ECp
  createdB : ECp
deriving DecidableEq

/-- A block of the speculative chain: a revertible micro block with its undo
log, or a finalized (macro) block. -/
inductive SBlock where
  | micro (b : MicroBlock) (undo : UndoLog)
  | finalized (b : MicroBlock)
deriving DecidableEq

def SBlock.data : SBlock → MicroBlock
  | .micro b _ => b
  | .finalized b => b

def SBlock.setTree : SBlock → MerkleTree → SBlock
  | .micro b u, t => .micro { b with outputs := t } u
  | .finalized b, t => .finalized { b with outputs := t }

/-- The chain state of the spec §4.D engine (the components claim P6
compares, plus `block_by_hash`). -/
structure MState where
  blocks : List SBlock
  block_by_hash : List (Nat × Nat)
  output_by_hash : List (Nat × OutputKey)
  escrow : List ((Nat × Nat) × EscrowRecord)
  created : ECp
  burned : ECp
  gamma : Int
  monetary_adjustment : Int
deriving DecidableEq

inductive SpecError where
  | previousMismatch
  | hashCollision
  | missingUTXO (h : Nat)
  | outputCollision (h : Nat)
  | invalidBalance
  | globalImbalance
  | cryptoFailure
  | internalCorruption
  | revertEmpty
  | revertFinalTail
deriving DecidableEq

/-- Spec §4.D `RevertedMicroBlock`: pruned-output hashes and recovered-input
outputs for downstream consumers. -/
structure RevertedMicroBlock where
  pruned_outputs : List Nat
  recovered_inputs : List Output
deriving DecidableEq

/-- Spec §4.D step 4: resolve each input and accumulate `burned`. -/
def computeBurnedM (s : MState) : List Nat → Except SpecError ECp
  | [] => .ok Chain.ECp.inf
  | h :: rest =>
    match lookupA s.output_by_hash h with
    | none => .error (.missingUTXO h)
    | some k =>
      match s.blocks.get? k.block_id with
      | some sb =>
        match sb.data.outputs.lookup k.path with
        | some o =>
          match o.commitment with
          | some c => (computeBurnedM s rest).map (fun acc => c + acc)
          | none => .error .cryptoFailure
        | none => .error .internalCorruption
      | none => .error .internalCorruption

/-- Spec §4.D step 5: each produced output must be fresh; accumulate
`created` and collect the leaf paths. -/
def checkOutputsM (ho : Output → Nat) (s : MState) :
    List (Output × MerklePath) → Except SpecError (ECp × List (Nat × MerklePath))
  | [] => .ok (Chain.ECp.inf, [])
  | (o, p) :: rest =>
    let h := ho o
    match lookupA s.output_by_hash h with
    | some _ => .error (.outputCollision h)
    | none =>
      match o.commitment with
      | some c => (checkOutputsM ho s rest).map (fun acc => (c + acc.1, (h, p) :: acc.2))
      | none => .error .cryptoFailure

/-- Commit-phase spend loop with undo recording: remove each input from the
index, prune its leaf, and log the pruned entry (oldest first). -/
def pruneInputsM (ho : Output → Nat) :
    List SBlock → List (Nat × OutputKey) → List Nat →
      Option (List SBlock × List (Nat × OutputKey) × List PrunedEntry)
  | blocks, index, [] => some (blocks, index, [])
  | blocks, index, h :: rest =>
    match lookupA index h with
    | none => none
    | some k =>
      match blocks.get? k.block_id with
      | some sb =>
        match sb.data.outputs.prune ho k.path with
        | (tree, some o) =>
          match pruneInputsM ho (blocks.set k.block_id (sb.setTree tree))
              (setA index h none) rest with
          | some (bs, ix, es) => some (bs, ix, ⟨h, k, o⟩ :: es)
          | none => none
        | (_, none) => none
      | none => none

/-- Commit-phase registration loop: insert the fresh outputs under the new
block id. -/
def insertOutputsM (block_id : Nat) :
    List (Nat × OutputKey) → List (Nat × MerklePath) → Option (List (Nat × OutputKey))
  | index, [] => some index
  | index, (h, p) :: rest =>
    match lookupA index h with
    | some _ => none
    | none => insertOutputsM block_id (setA index h (some ⟨block_id, p⟩)) rest

/-- Escrow unstake calls for the consumed stake outputs, with journal (oldest
first). -/
def unstakesJ (ho : Output → Nat) (es : List ((Nat × Nat) × EscrowRecord)) :
    List PrunedEntry →
      List ((Nat × Nat) × EscrowRecord) × List ((Nat × Nat) × Option EscrowRecord)
  | [] => (es, [])
  | e :: rest =>
    match e.output with
    | .stakeOutput o =>
      let k := (o.validator, ho e.output)
      let res := unstakesJ ho (setA es k none) rest
      (res.1, (k, lookupA es k) :: res.2)
    | .paymentOutput _ => unstakesJ ho es rest

/-- Escrow stake calls for the produced stake outputs, with journal (oldest
first); `bonding = block.timestamp + BONDING_TIME` per spec §3. -/
def stakesJ (ho : Output → Nat) (es : List ((Nat × Nat) × EscrowRecord)) (bonding : Nat) :
    List Output →
      List ((Nat × Nat) × EscrowRecord) × List ((Nat × Nat) × Option EscrowRecord)
  | [] => (es, [])
  | o :: rest =>
    match o with
    | .stakeOutput so =>
      let k := (so.validator, ho o)
      let res := stakesJ ho (setA es k (some ⟨bonding, so.amount⟩)) bonding rest
      (res.1, (k, lookupA es k) :: res.2)
    | .paymentOutput _ => stakesJ ho es bonding rest

/-- Spec §4.D `apply_micro`. -/
def applyMicro (ho : Output → Nat) (hmb : MicroBlock → Nat) (s : MState) (b : MicroBlock) :
    Except SpecError MState :=
  match s.blocks.getLast? with
  | some last =>
    if hmb last.data = b.previous then applyMicroChecked ho hmb s b
    else .error .previousMismatch
  | none => applyMicroChecked ho hmb s b
where
  applyMicroChecked (ho : Output → Nat) (hmb : MicroBlock → Nat) (s : MState)
      (b : MicroBlock) : Except SpecError MState :=
    let this_hash := hmb b
    match lookupA s.block_by_hash this_hash with
    | some _ => .error .hashCollision
    | none =>
      match computeBurnedM s b.inputs with
      | .error e => .error e
      | .ok burnedB =>
        match checkOutputsM ho s b.outputs.leafs with
        | .error e => .error e
        | .ok (createdB, outputs_pathes) =>
          if fee_a b.monetary_adjustment + burnedB - createdB = gMulG b.gamma then
            if fee_a (s.monetary_adjustment + b.monetary_adjustment) +
                (s.burned + burnedB) - (s.created + createdB) =
                gMulG (s.gamma + b.gamma) then
              match pruneInputsM ho s.blocks s.output_by_hash b.inputs with
              | none => .error .internalCorruption
              | some (blocks1, index1, prunedL) =>
                let block_id := s.blocks.length
                match insertOutputsM block_id index1 outputs_pathes with
                | none => .error .internalCorruption
                | some index2 =>
                  let esu := unstakesJ ho s.escrow prunedL
                  let ess := stakesJ ho esu.1 (b.timestamp + Chain.BONDING_TIME)
                    (b.outputs.leafs.map (fun op => op.1))
                  let undo : UndoLog :=
                    ⟨prunedL,
                      prunedL.map (fun e => (e.ohash, some e.key)) ++
                        outputs_pathes.map (fun hp => (hp.1, none)),
                      esu.2 ++ ess.2, burnedB, createdB⟩
                  .ok { blocks := blocks1 ++ [SBlock.micro b undo]
                        block_by_hash := (this_hash, block_id) :: s.block_by_hash
                        output_by_hash := index2
                        escrow := ess.1
                        created := s.created + createdB
                        burned := s.burned + burnedB
                        gamma := s.gamma + b.gamma
                        monetary_adjustment :=
                          s.monetary_adjustment + b.monetary_adjustment }
            else .error .globalImbalance
          else .error .invalidBalance

/-- Replay a journal backwards: the operations were recorded oldest first, so
a right fold undoes the newest write first. -/
def undoJournal {κ α : Type} [DecidableEq κ] (m : List (κ × α))
    (j : List (κ × Option α)) : List (κ × α) :=
  j.foldr (fun e acc => setA acc e.1 e.2) m

/-- Put each pruned leaf back in its producing block; the right fold over the
oldest-first log undoes the newest prune first. -/
def restoreBlocks (bs : List SBlock) (l : List PrunedEntry) : List SBlock :=
  l.foldr
    (fun e acc =>
      match acc.get? e.key.block_id with
      | some sb =>
        acc.set e.key.block_id (sb.setTree (sb.data.outputs.restore e.key.path e.output))
      | none => acc)
    bs

/-- Spec §4.D `revert_micro`: pop the last micro block (failing on an empty
chain or a finalized tail) and undo its effects using its undo log. -/
def revertMicro (ho : Output → Nat) (hmb : MicroBlock → Nat) (s : MState) :
    Except SpecError (MState × RevertedMicroBlock) :=
  match s.blocks.getLast? with
  | none => .error .revertEmpty
  | some (.finalized _) => .error .revertFinalTail
  | some (.micro b u) =>
    let blocks0 := restoreBlocks s.blocks.dropLast u.prunedList
    let reverted : RevertedMicroBlock :=
      ⟨b.outputs.leafs.map (fun op => ho op.1), u.prunedList.map (fun e => e.output)⟩
    .ok ({ blocks := blocks0
           block_by_hash := removeA s.block_by_hash (hmb b)
           output_by_hash := undoJournal s.output_by_hash u.ixJournal
           escrow := undoJournal s.escrow u.esJournal
           created := s.created - u.createdB
           burned := s.burned - u.burnedB
           gamma := s.gamma - b.gamma
           monetary_adjustment := s.monetary_adjustment - b.monetary_adjustment },
      reverted)

end SpecChain

namespace NodeTx

/-!
### Transaction validation (`node/src/validation.rs`)

`validate_transaction` runs over the chain, the mempool and the transaction.
The chain interface it uses (`output_by_hash` returning `Result<Option<_>>`,
`contains_output`, `validate_staking_balance`) and the cryptographic
`tx.validate(&inputs)` live outside `src/` and are taken as opaque function
parameters; the mempool (`node`'s `crate::mempool`, also outside `src/`) is
modelled from spec §4.F as its three membership indices.
-/

open Chain (Output)

structure TransactionBody where
  txins : List Nat
  txouts : List Output
  gamma : Int
  fee : Int
deriving DecidableEq

structure Transaction where
  body : TransactionBody
deriving DecidableEq

/-- Modelled from the spec: §4.F, the mempool's three indices (by tx hash, by
claimed input, by produced output). -/
structure Mempool where
  txs : List Nat
  inputs : List Nat
  outputs : List Nat
deriving DecidableEq

def Mempool.containsTx (m : Mempool) (h : Nat) : Bool := decide (h ∈ m.txs)

def Mempool.containsInput (m : Mempool) (h : Nat) : Bool := decide (h ∈ m.inputs)

def Mempool.containsOutput (m : Mempool) (h : Nat) : Bool := decide (h ∈ m.outputs)

/-- `NodeTransactionError` plus the foreign failures that propagate through
`?` in the source (disk errors from `output_by_hash`, `tx.validate`
failures, staking-balance failures). -/
inductive NodeTxError where
  | alreadyExists (tx_hash : Nat)
  | tooLowFee (tx_hash : Nat) (min got : Int)
  | missingInput (tx_hash input_hash : Nat)
  | outputHashCollision (tx_hash output_hash : Nat)
  | chainFailure (e : String)
  | txValidateFailure (e : String)
  | stakingBalanceFailure (e : String)
deriving DecidableEq

/-- The minimum fee of `validate_transaction` (`validation.rs:75`): each
output contributes `payment_fee` or `stake_fee` by variant. -/
def minFee (payment_fee stake_fee : Int) : List Output → Int
  | [] => 0
  | o :: rest =>
    (match o with
      | .paymentOutput _ => payment_fee
      | .stakeOutput _ => stake_fee) + minFee payment_fee stake_fee rest

/-- `staking_balance.entry(v).or_insert(0) += d`. -/
def addStake (m : List (Nat × Int)) (v : Nat) (d : Int) : List (Nat × Int) :=
  match lookupA m v with
  | some x => setA m v (some (x + d))
  | none => (v, d) :: m

/-- The input loop (`validation.rs:90`): resolve each input, reject inputs
claimed by the mempool, and accumulate negative stake deltas. -/
def validateInputs (chainOutput : Nat → Except String (Option Output)) (m : Mempool)
    (tx_hash : Nat) :
    List Nat → List (Nat × Int) → Except NodeTxError (List Output × List (Nat × Int))
  | [], sb => .ok ([], sb)
  | h :: rest, sb =>
    match chainOutput h with
    | .error e => .error (.chainFailure e)
    | .ok none => .error (.missingInput tx_hash h)
    | .ok (some input) =>
      if m.containsInput h then .error (.missingInput tx_hash h)
      else
        let sb := match input with
          | .stakeOutput o => addStake sb o.validator (-o.amount)
          | .paymentOutput _ => sb
        (validateInputs chainOutput m tx_hash rest sb).map (fun r => (input :: r.1, r.2))

/-- The output loop (`validation.rs:115`): each produced output must be absent
from the mempool and the chain; accumulate positive stake deltas. -/
def validateOutputs (ho : Output → Nat) (chainContains : Nat → Bool) (m : Mempool)
    (tx_hash : Nat) :
    List Output → List (Nat × Int) → Except NodeTxError (List (Nat × Int))
  | [], sb => .ok sb
  | o :: rest, sb =>
    let h := ho o
    if m.containsOutput h || chainContains h then .error (.outputHashCollision tx_hash h)
    else
      let sb := match o with
        | .stakeOutput so => addStake sb so.validator so.amount
        | .paymentOutput _ => sb
      validateOutputs ho chainContains m tx_hash rest sb

/-- `validate_transaction` (`validation.rs:41`). -/
def validate_transaction (ho : Output → Nat) (htx : Transaction → Nat)
    (chainOutput : Nat → Except String (Option Output)) (chainContains : Nat → Bool)
    (txValidate : Transaction → List Output → Except String Unit)
    (stakingBalance : List (Nat × Int) → Except String Unit)
    (tx : Transaction) (m : Mempool) (payment_fee stake_fee : Int) :
    Except NodeTxError Unit :=
  let tx_hash := htx tx
  if m.containsTx tx_hash then .error (.alreadyExists tx_hash)
  else if tx.body.fee < minFee payment_fee stake_fee tx.body.txouts then
    .error (.tooLowFee tx_hash (minFee payment_fee stake_fee tx.body.txouts) tx.body.fee)
  else
    match validateInputs chainOutput m tx_hash tx.body.txins [] with
    | .error e => .error e
    | .ok (inputs, sb) =>
      match validateOutputs ho chainContains m tx_hash tx.body.txouts sb with
      | .error e => .error e
      | .ok sb =>
        match txValidate tx inputs with
        | .error e => .error (.txValidateFailure e)
        | .ok () =>
          match stakingBalance sb with
          | .error e => .error (.stakingBalanceFailure e)
          | .ok () => .ok ()

end NodeTx

namespace Wallet

/-!
### Wallet account output processing (`wallet/src/lib.rs`)

The wallet's output type has three variants.  An encrypted payment payload is
modelled by its clear content; `decrypt_payload` succeeds exactly for the
addressed account (modelled from the spec: ownership of a confidential
payment is "successful payload decryption").  The durable store keeps the
unspent map and the `current_epoch_balance_changed` flag; `push_incomming`
appends to the history log (its I/O errors are swallowed by the source).
The pending-transaction bookkeeping (`prune_txs`, `rollback_txs`,
`on_tx_statuses_changed`) runs before `on_outputs_changed` in the
notification handler and never touches the unspent store; it is not modelled.
-/

structure WPaymentOutput where
  recipient : Nat
  amount : Int
deriving DecidableEq

structure WPublicPaymentOutput where
  recipient : Nat
  amount : Int
deriving DecidableEq

structure WStakeOutput where
  recipient : Nat
  validator : Nat
  amount : Int
deriving DecidableEq

inductive WOutput where
  | payment (o : WPaymentOutput)
  | publicPayment (o : WPublicPaymentOutput)
  | stake (o : WStakeOutput)
deriving DecidableEq

/-- Modelled from the spec: payload decryption under the account key succeeds
exactly when the output is addressed to the account. -/
def decryptPayload (account_pkey : Nat) (o : WPaymentOutput) : Option Int :=
  if o.recipient = account_pkey then some o.amount else none

/-- The decoded values stored in the unspent map (`PaymentValue`,
`PublicPaymentValue`, `StakeValue`). -/
inductive OutputValue where
  | paymentV (o : WPaymentOutput)
  | publicPaymentV (o : WPublicPaymentOutput)
  | stakeV (o : WStakeOutput) (active_until_epoch : Nat)
deriving DecidableEq

def OutputValue.amount : OutputValue → Int
  | .paymentV o => o.amount
  | .publicPaymentV o => o.amount
  | .stakeV o _ => o.amount

structure AccountDB where
  unspent : List (Nat × OutputValue)
  incomming : List (Nat × OutputValue)
  current_epoch_balance_changed : Bool
deriving DecidableEq

/-- The balance reading used for change detection around
`on_outputs_changed`. -/
def AccountDB.balance (db : AccountDB) : Int :=
  db.unspent.foldl (fun a kv => a + kv.2.amount) 0

inductive AccountNotification where
  | received (h : Nat) (amount : Int)
  | receivedPublic (h : Nat) (amount : Int)
  | staked (h : Nat) (amount : Int)
  | spent (h : Nat) (amount : Int)
  | spentPublic (h : Nat) (amount : Int)
  | unstaked (h : Nat) (amount : Int)
  | balanceChanged (balance : Int)
deriving DecidableEq

structure AccountState where
  account_pkey : Nat
  stake_epochs : Nat
  database : AccountDB
  notifications : List AccountNotification
deriving DecidableEq

def AccountState.notify (st : AccountState) (n : AccountNotification) : AccountState :=
  { st with notifications := st.notifications ++ [n] }

/-- `on_output_created` (`lib.rs:701`): insert an owned output into the
unspent store.  `none` models the `assert!` aborts (a stale entry under the
same hash, or a negative decoded amount). -/
def onOutputCreated (hw : WOutput → Nat) (st : AccountState) (epoch : Nat)
    (output : WOutput) (block_timestamp : Nat) : Option AccountState :=
  let h := hw output
  match output with
  | .payment o =>
    match decryptPayload st.account_pkey o with
    | some amount =>
      if amount < 0 then none
      else
        let st := { st with database :=
          { st.database with
              current_epoch_balance_changed := true
              incomming := st.database.incomming ++ [(block_timestamp, OutputValue.paymentV o)] } }
        match lookupA st.database.unspent h with
        | some _ => none
        | none =>
          some ((
            { st with database :=
                { st.database with unspent := (h, .paymentV o) :: st.database.unspent } }).notify
            (.received h amount))
    | none => some st
  | .publicPayment o =>
    if o.recipient ≠ st.account_pkey then some st
    else if o.amount < 0 then none
    else
      let st := { st with database :=
        { st.database with
            current_epoch_balance_changed := true
            incomming := st.database.incomming ++
              [(block_timestamp, OutputValue.publicPaymentV o)] } }
      match lookupA st.database.unspent h with
      | some _ => none
      | none =>
        some ((
          { st with database :=
              { st.database with
                  unspent := (h, .publicPaymentV o) :: st.database.unspent } }).notify
          (.receivedPublic h o.amount))
  | .stake o =>
    if o.recipient ≠ st.account_pkey then some st
    else
      let active_until_epoch := epoch + st.stake_epochs
      let st := { st with database :=
        { st.database with current_epoch_balance_changed := true } }
      match lookupA st.database.unspent h with
      | some _ => none
      | none =>
        some ((
          { st with database :=
              { st.database with
                  unspent := (h, .stakeV o active_until_epoch) :: st.database.unspent } }).notify
          (.staked h o.amount))

/-- `on_output_pruned` (`lib.rs:800`): silently skip unknown hashes, remove
owned ones and emit the matching notification. -/
def onOutputPruned (st : AccountState) (h : Nat) : AccountState :=
  match lookupA st.database.unspent h with
  | none => st
  | some v =>
    let st := { st with database :=
      { st.database with
          current_epoch_balance_changed := true
          unspent := removeA st.database.unspent h } }
    match v with
    | .paymentV o => st.notify (.spent h o.amount)
    | .publicPaymentV o => st.notify (.spentPublic h o.amount)
    | .stakeV o _ => st.notify (.unstaked h o.amount)

def createdAll (hw : WOutput → Nat) (st : AccountState) (epoch : Nat)
    (block_timestamp : Nat) : List WOutput → Option AccountState
  | [] => some st
  | o :: rest =>
    match onOutputCreated hw st epoch o block_timestamp with
    | none => none
    | some st => createdAll hw st epoch block_timestamp rest

/-- `on_outputs_changed` (`lib.rs:668`): first create outputs, then remove
inputs, then finalize the epoch flag and emit a balance notification on
change. -/
def onOutputsChanged (hw : WOutput → Nat) (st : AccountState) (epoch : Nat)
    (inputs : List Nat) (outputs : List WOutput) (is_final : Bool)
    (block_timestamp : Nat) : Option AccountState :=
  let saved_balance := st.database.balance
  match createdAll hw st epoch block_timestamp outputs with
  | none => none
  | some st =>
    let st := inputs.foldl onOutputPruned st
    let st :=
      if is_final then
        { st with database := { st.database with current_epoch_balance_changed := false } }
      else st
    some (if saved_balance ≠ st.database.balance
      then st.notify (.balanceChanged st.database.balance) else st)

/-- The chain notifications consumed by the account service
(`MicroBlockPrepared` / `MacroBlockCommitted` / `MicroBlockReverted`). -/
inductive ChainNotification where
  | prepared (epoch offset : Nat) (inputs : List Nat) (outputs : List WOutput)
      (timestamp : Nat)
  | committed (epoch : Nat) (inputs : List Nat) (outputs : List WOutput)
      (timestamp : Nat)
  | reverted (epoch offset : Nat) (pruned_outputs : List Nat)
      (recovered_inputs : List WOutput) (timestamp : Nat)
deriving DecidableEq

/-- The hashes removed from the unspent store by a notification (the second
walk of `on_outputs_changed`). -/
def ChainNotification.inputsOf : ChainNotification → List Nat
  | .prepared _ _ i _ _ => i
  | .committed _ i _ _ => i
  | .reverted _ _ po _ _ => po

/-- The outputs inserted into the unspent store by a notification (the first
walk of `on_outputs_changed`). -/
def ChainNotification.outputsOf : ChainNotification → List WOutput
  | .prepared _ _ _ o _ => o
  | .committed _ _ o _ => o
  | .reverted _ _ _ ri _ => ri

def ChainNotification.epochOf : ChainNotification → Nat
  | .prepared e _ _ _ _ => e
  | .committed e _ _ _ => e
  | .reverted e _ _ _ _ => e

def ChainNotification.timestampOf : ChainNotification → Nat
  | .prepared _ _ _ _ t => t
  | .committed _ _ _ t => t
  | .reverted _ _ _ _ t => t

def ChainNotification.isFinal : ChainNotification → Bool
  | .committed _ _ _ _ => true
  | _ => false

/-- The output-processing part of the notification handler (`lib.rs:1361`):
each of the three notification variants invokes `on_outputs_changed` with its
inputs and outputs (`is_final` only for a committed macro block). -/
def handleOutputsChanged (hw : WOutput → Nat) (st : AccountState)
    (n : ChainNotification) : Option AccountState :=
  onOutputsChanged hw st n.epochOf n.inputsOf n.outputsOf n.isFinal n.timestampOf

/-- The unspent-store value an output would be stored under, `none` when the
account does not own the output. -/
def ownedValue (account_pkey stake_epochs epoch : Nat) : WOutput → Option OutputValue
  | .payment o =>
    match decryptPayload account_pkey o with
    | some _ => some (.paymentV o)
    | none => none
  | .publicPayment o =>
    if o.recipient = account_pkey then some (.publicPaymentV o) else none
  | .stake o =>
    if o.recipient = account_pkey then some (.stakeV o (epoch + stake_epochs)) else none

/-- The amount assertions of `on_output_created` (`assert!(amount >= 0)` in
the payment and public-payment arms; the stake arm has none). -/
def WOutput.nonnegAmount : WOutput → Prop
  | .payment o => 0 ≤ o.amount
  | .publicPayment o => 0 ≤ o.amount
  | .stake _ => True

instance (o : WOutput) : Decidable o.nonnegAmount := by
  unfold WOutput.nonnegAmount
  cases o <;> infer_instance

/-- The owned output of a notification carrying a given hash, if any. -/
def createdLookup (hw : WOutput → Nat) (account_pkey stake_epochs epoch : Nat) :
    List WOutput → Nat → Option OutputValue
  | [], _ => none
  | o :: rest, h =>
    if hw o = h then
      match ownedValue account_pkey stake_epochs epoch o with
      | some v => some v
      | none => createdLookup hw account_pkey stake_epochs epoch rest h
    else createdLookup hw account_pkey stake_epochs epoch rest h

end Wallet

namespace Sealed

/-!
### Sealed account service (`wallet/src/lib.rs`, `SealedAccountService`)

The request/response surface (`AccountRequest` / `AccountResponse`) is defined
in the wallet's api module, which is not under `src/`; it is modelled from
spec §6's recognized request list.  Key-file loading (`load_secret_key`,
reading `account.skey` under a password) is outside `src/` as well and is
passed as a function parameter.  The service owns no database handle: its
state is the key material and configuration captured from the account.
-/

/-- Modelled from the spec: §6's recognized account requests. -/
inductive AccountRequest where
  | payment (recipient : Nat) (amount : Int) (payment_fee : Int) (comment : String)
      (with_certificate : Bool)
  | public_payment (recipient : Nat) (amount : Int) (payment_fee : Int)
  | secure_payment (recipient : Nat) (amount : Int) (payment_fee : Int) (comment : String)
  | stake (amount : Int) (payment_fee : Int)
  | stake_all (payment_fee : Int)
  | unstake (amount : Int) (payment_fee : Int)
  | unstake_all (payment_fee : Int)
  | cloak_all (payment_fee : Int)
  | balance_info
  | unspent_info
  | history_info (starting_from : Nat) (limit : Nat)
  | account_info
  | get_recovery
  | change_password (new_password : String)
  | seal
  | unseal (password : String)
  | disable
deriving DecidableEq

/-- The responses the sealed service can produce (the full response set
mirrors the request set; only these variants are reachable while sealed). -/
inductive AccountResponse where
  | unsealed
  | accountInfoR (account_pkey network_pkey : Nat)
  | error (error : String)
deriving DecidableEq

/-- What happens to the service after handling a request. -/
inductive SealedOutcome where
  | stillSealed
  | becomeUnsealed (account_skey : Nat)
  | terminated
deriving DecidableEq

/-- The `SealedAccountService` fields that constitute its state (channels and
paths aside). -/
structure SealedState where
  account_pkey : Nat
  network_skey : Nat
  network_pkey : Nat
  stake_epochs : Nat
  max_inputs_in_tx : Nat
deriving DecidableEq

/-- One request step of `SealedAccountService::poll` (`lib.rs:1573`): the
`Unseal` / `AccountInfo` / `Disable` arms, and the catch-all answering
"Account is sealed".  `load_secret_key` is the passed `loadKey`; `Disable`
terminates without sending a response (the reply port is dropped).  The
returned state is always the input state: the sealed service performs no
store writes. -/
def handleSealedRequest (loadKey : String → Except String Nat) (st : SealedState)
    (req : AccountRequest) : Option AccountResponse × SealedOutcome × SealedState :=
  match req with
  | .unseal password =>
    match loadKey password with
    | .ok account_skey => (some .unsealed, .becomeUnsealed account_skey, st)
    | .error e => (some (.error e), .stillSealed, st)
  | .account_info => (some (.accountInfoR st.account_pkey st.network_pkey), .stillSealed, st)
  | .disable => (none, .terminated, st)
  | _ => (some (.error "Account is sealed"), .stillSealed, st)

/-- The requests the sealed service treats specially. -/
def AccountRequest.isSealedSpecial : AccountRequest → Bool
  | .unseal _ => true
  | .account_info => true
  | .disable => true
  | _ => false

end Sealed

/-! ### Concrete fixtures used by witnesses and counterexamples -/

namespace Chain

/-- A concrete hash assignment for witness evaluation (no property of the
hash functions is used by any theorem). -/
def hf0 : HashFn where
  out o :=
    match o with
    | .paymentOutput p => p.recipient
    | .stakeOutput st => st.recipient
  keyH h := h.base.previous + 200
  monH h := h.base.previous + 100

/-- A payment output committing to `(0, -5)`. -/
def o0 : Output := .paymentOutput ⟨1, some (0, -5)⟩

/-- A balanced genesis monetary block carrying `o0` (gamma 5 balances the
commitment). -/
def b0 : MonetaryBlock :=
  ⟨⟨⟨1, 0, 0, 0⟩, 5, 0⟩, ⟨[], .leaf o0⟩⟩

/-- The chain after applying `b0` to the empty chain. -/
def s1 : Blockchain := (Blockchain.empty.registerMonetaryBlock hf0 b0 0).1

/-- A key block with the epoch expected by the empty chain. -/
def kb0 : KeyBlock := ⟨⟨⟨1, 0, 1, 0⟩, 7, 8, [9]⟩⟩

/-- A monetary block spending an unknown input (hash 0). -/
def bMissing : MonetaryBlock :=
  ⟨⟨⟨1, 0, 0, 0⟩, 0, 0⟩, ⟨[0], .prunedLeaf 0⟩⟩

/-- A monetary block whose local balance check fails (`gamma` is off by
one). -/
def bUnbal : MonetaryBlock :=
  ⟨⟨⟨1, 0, 0, 0⟩, 4, 0⟩, ⟨[], .leaf o0⟩⟩

end Chain

namespace SpecChain

/-- Concrete hash for spec-model micro blocks. -/
def hmb0 (b : MicroBlock) : Nat := b.previous + 300

/-- The empty spec-model chain. -/
def ms0 : MState := ⟨[], [], [], [], Chain.ECp.inf, Chain.ECp.inf, 0, 0⟩

/-- A balanced micro block carrying `Chain.o0`. -/
def mb0 : MicroBlock := ⟨0, [], .leaf Chain.o0, 5, 0, 0⟩

/-- The state `applyMicro` produces from `ms0` and `mb0`. -/
def msApplied : MState :=
  ⟨[SBlock.micro mb0 ⟨[], [(1, none)], [], (0, 0), (0, -5)⟩],
    [(300, 0)], [(1, ⟨0, []⟩)], [], (0, -5), (0, 0), 5, 0⟩

end SpecChain

namespace Wallet

/-- A concrete wallet-output hash used in witnesses. -/
def hw0 : WOutput → Nat
  | .payment p => p.recipient
  | .publicPayment p => p.recipient
  | .stake p => p.recipient

end Wallet

namespace Chain

/-- Coherence of a UTXO index against a block list: every entry points to a
live leaf of a monetary block whose digest is the entry's key. -/
def cohIndex (hf : HashFn) (blocks : List Block) (index : List (Nat × OutputKey)) : Prop :=
  ∀ h k, lookupA index h = some k →
    ∃ mb o, blocks.get? k.block_id = some (Block.monetaryBlock mb) ∧
      mb.body.outputs.lookup k.path = some o ∧ hf.out o = h

/-- The well-formedness invariant maintained by successful block
applications: index coherence, canonical database shape mirroring the chain,
and a sound and complete `block_by_hash`. -/
structure WF (hf : HashFn) (s : Blockchain) : Prop where
  coh : cohIndex hf s.blocks s.output_by_hash
  db_eq : s.database = mkDb 0 (s.database.map Prod.snd)
  db_len : (s.database.map Prod.snd).length = s.blocks.length
  db_hash : ∀ i, ((s.database.map Prod.snd).get? i).map (hashBlock hf) =
    (s.blocks.get? i).map (hashBlock hf)
  bbh_sound : ∀ h i, lookupA s.block_by_hash h = some i →
    ∃ blk, s.blocks.get? i = some blk ∧ hashBlock hf blk = h
  bbh_complete : ∀ i blk, s.blocks.get? i = some blk →
    lookupA s.block_by_hash (hashBlock hf blk) = some i

end Chain

/-! ## Lemma layer -/

/-! ### Association lists -/

theorem lookupA_removeA {κ α : Type} [DecidableEq κ] (xs : List (κ × α)) (k q : κ) :
    lookupA (removeA xs k) q = if q = k then none else lookupA xs q := by
  induction xs with
  | nil => simp [removeA, lookupA]
  | cons kv rest ih =>
    by_cases h1 : kv.1 = k
    · simp only [removeA, if_pos h1, ih, lookupA]
      by_cases h2 : q = k
      · simp [h2]
      · have : kv.1 ≠ q := by
          intro hc
          exact h2 (by rw [← hc, h1])
        simp [h2, this]
    · simp only [removeA, if_neg h1, lookupA, ih]
      by_cases h2 : kv.1 = q
      · have : q ≠ k := by
          intro hc
          exact h1 (by rw [h2, hc])
        simp [h2, this]
      · simp [h2]

theorem lookupA_setA {κ α : Type} [DecidableEq κ] (xs : List (κ × α)) (k : κ)
    (v : Option α) (q : κ) :
    lookupA (setA xs k v) q = if q = k then v else lookupA xs q := by
  cases v with
  | none => simp [setA, lookupA_removeA]
  | some a =>
    simp only [setA, lookupA, lookupA_removeA]
    by_cases h : q = k
    · simp [h]
    · have : k ≠ q := fun hc => h hc.symm
      simp [h, this]

theorem removeA_of_lookupA_none {κ α : Type} [DecidableEq κ] (xs : List (κ × α)) (k : κ)
    (h : lookupA xs k = none) : removeA xs k = xs := by
  induction xs with
  | nil => rfl
  | cons kv rest ih =>
    simp only [lookupA] at h
    by_cases h1 : kv.1 = k
    · simp [h1] at h
    · simp only [removeA, if_neg h1]
      rw [ih (by simpa [h1] using h)]

theorem lookupA_eq_none_of_setA_undo {κ α : Type} [DecidableEq κ] (xs : List (κ × α))
    (k : κ) (v : Option α) (q : κ) :
    lookupA (setA (setA xs k v) k (lookupA xs k)) q = lookupA xs q := by
  rw [lookupA_setA, lookupA_setA]
  by_cases h : q = k
  · simp [h]
  · simp [h]

/-! ### List indexing helpers -/

theorem listGet?_set_self {α : Type} (l : List α) (i : Nat) (a : α) (h : i < l.length) :
    (l.set i a).get? i = some a := by
  induction l generalizing i with
  | nil => simp at h
  | cons x xs ih =>
    cases i with
    | zero => rfl
    | succ n =>
      simp only [List.set, List.get?]
      exact ih n (by simpa using h)

theorem listGet?_set_ne {α : Type} (l : List α) (i j : Nat) (a : α) (h : i ≠ j) :
    (l.set i a).get? j = l.get? j := by
  induction l generalizing i j with
  | nil => rfl
  | cons x xs ih =>
    cases i with
    | zero =>
      cases j with
      | zero => exact absurd rfl h
      | succ m => rfl
    | succ n =>
      cases j with
      | zero => rfl
      | succ m =>
        simp only [List.set, List.get?]
        exact ih n m (fun hc => h (by rw [hc]))

theorem listSet_of_get? {α : Type} (l : List α) (i : Nat) (a : α)
    (h : l.get? i = some a) : l.set i a = l := by
  induction l generalizing i with
  | nil => rfl
  | cons x xs ih =>
    cases i with
    | zero =>
      simp only [List.get?] at h
      cases h
      rfl
    | succ n =>
      simp only [List.get?] at h
      simp only [List.set]
      rw [ih n h]

theorem listGet?_append_left {α : Type} (l l2 : List α) (i : Nat) (h : i < l.length) :
    (l ++ l2).get? i = l.get? i := by
  induction l generalizing i with
  | nil => simp at h
  | cons x xs ih =>
    cases i with
    | zero => rfl
    | succ n => exact ih n (by simpa using h)

theorem listGet?_concat_self {α : Type} (l : List α) (a : α) :
    (l ++ [a]).get? l.length = some a := by
  induction l with
  | nil => rfl
  | cons x xs ih => simp [ih]

theorem listSet_length {α : Type} (l : List α) (i : Nat) (a : α) :
    (l.set i a).length = l.length := by
  simp

theorem listGet?_lt_length {α : Type} (l : List α) (i : Nat) (a : α)
    (h : l.get? i = some a) : i < l.length := by
  induction l generalizing i with
  | nil => simp [List.get?] at h
  | cons x xs ih =>
    cases i with
    | zero => simp
    | succ n =>
      simp only [List.get?] at h
      simpa using ih n h

/-! ### Merkle tree lemmas -/

namespace Chain

theorem MerkleTree.lookup_of_mem_leafs (t : MerkleTree) (o : Output) (p : MerklePath)
    (h : (o, p) ∈ t.leafs) : t.lookup p = some o := by
  induction t generalizing p with
  | leaf o2 =>
    simp only [MerkleTree.leafs, List.mem_singleton] at h
    cases h
    rfl
  | prunedLeaf h2 => simp [MerkleTree.leafs] at h
  | node l r ihl ihr =>
    simp only [MerkleTree.leafs, List.mem_append, List.mem_map] at h
    rcases h with ⟨⟨o2, p2⟩, hmem, heq⟩ | ⟨⟨o2, p2⟩, hmem, heq⟩
    · cases heq
      exact ihl p2 hmem
    · cases heq
      exact ihr p2 hmem

theorem MerkleTree.prune_snd (ho : Output → Nat) (t : MerkleTree) (p : MerklePath)
    (o : Output) (h : t.lookup p = some o) : (t.prune ho p).2 = some o := by
  induction t generalizing p with
  | leaf o2 =>
    cases p with
    | nil =>
      simp only [MerkleTree.lookup] at h
      cases h
      rfl
    | cons b rest => simp [MerkleTree.lookup] at h
  | prunedLeaf h2 => simp [MerkleTree.lookup] at h
  | node l r ihl ihr =>
    cases p with
    | nil => simp [MerkleTree.lookup] at h
    | cons b rest =>
      cases b
      · simp only [MerkleTree.lookup] at h
        simpa [MerkleTree.prune] using ihl rest h
      · simp only [MerkleTree.lookup] at h
        simpa [MerkleTree.prune] using ihr rest h

theorem MerkleTree.prune_lookup_ne (ho : Output → Nat) (t : MerkleTree)
    (p q : MerklePath) (hne : q ≠ p) : (t.prune ho p).1.lookup q = t.lookup q := by
  induction t generalizing p q with
  | leaf o =>
    cases p with
    | nil =>
      cases q with
      | nil => exact absurd rfl hne
      | cons b rest => simp [MerkleTree.prune, MerkleTree.lookup]
    | cons b rest => simp [MerkleTree.prune]
  | prunedLeaf h2 => simp [MerkleTree.prune]
  | node l r ihl ihr =>
    cases p with
    | nil => simp [MerkleTree.prune]
    | cons pb prest =>
      cases q with
      | nil =>
        cases pb <;> simp [MerkleTree.prune, MerkleTree.lookup]
      | cons qb qrest =>
        cases pb <;> cases qb <;>
          simp only [MerkleTree.prune, MerkleTree.lookup]
        · exact ihl prest qrest (fun hc => hne (by rw [hc]))
        · exact ihr prest qrest (fun hc => hne (by rw [hc]))

theorem MerkleTree.restore_prune (ho : Output → Nat) (t : MerkleTree) (p : MerklePath)
    (o : Output) (h : t.lookup p = some o) : ((t.prune ho p).1).restore p o = t := by
  induction t generalizing p with
  | leaf o2 =>
    cases p with
    | nil =>
      simp only [MerkleTree.lookup] at h
      cases h
      rfl
    | cons b rest => simp [MerkleTree.lookup] at h
  | prunedLeaf h2 => simp [MerkleTree.lookup] at h
  | node l r ihl ihr =>
    cases p with
    | nil => simp [MerkleTree.lookup] at h
    | cons b rest =>
      cases b
      · simp only [MerkleTree.lookup] at h
        simp only [MerkleTree.prune, MerkleTree.restore]
        rw [ihl rest h]
      · simp only [MerkleTree.lookup] at h
        simp only [MerkleTree.prune, MerkleTree.restore]
        rw [ihr rest h]

/-! ### Database (`ListDb` model) lemmas -/

theorem mkDb_map_snd (bs : List Block) (st : Nat) : (mkDb st bs).map Prod.snd = bs := by
  induction bs generalizing st with
  | nil => rfl
  | cons b rest ih => simp [mkDb, ih]

theorem dbInsert_mkDb (bs : List Block) (b : Block) (st : Nat) :
    dbInsert (mkDb st bs) (st + bs.length) b = mkDb st (bs ++ [b]) := by
  induction bs generalizing st with
  | nil => simp [mkDb, dbInsert]
  | cons hd tl ih =>
    have h1 : ¬ st + (hd :: tl).length < st := by simp
    have h2 : ¬ st + (hd :: tl).length = st := by simp
    simp only [mkDb, dbInsert, List.cons_append, if_neg h1, if_neg h2]
    have : st + (hd :: tl).length = (st + 1) + tl.length := by
      simp [List.length_cons]
      omega
    rw [this, ih (st + 1)]
    rfl

theorem dbIterStarting_mkDb_all (bs : List Block) (st q : Nat) (h : q ≤ st) :
    dbIterStarting (mkDb st bs) q = bs := by
  induction bs generalizing st with
  | nil => rfl
  | cons hd tl ih =>
    simp only [mkDb, dbIterStarting, if_pos h]
    rw [ih (st + 1) (by omega)]

theorem dbIterStarting_mkDb_drop (bs : List Block) (st i : Nat) :
    dbIterStarting (mkDb st bs) (st + i) = bs.drop i := by
  induction bs generalizing st i with
  | nil => simp [mkDb, dbIterStarting]
  | cons hd tl ih =>
    cases i with
    | zero =>
      simp only [Nat.add_zero, List.drop_zero]
      exact dbIterStarting_mkDb_all (hd :: tl) st st (le_refl st)
    | succ n =>
      have h1 : ¬ st + (n + 1) ≤ st := by omega
      simp only [mkDb, dbIterStarting, if_neg h1, List.drop_succ_cons]
      have : st + (n + 1) = (st + 1) + n := by omega
      rw [this, ih (st + 1) n]

end Chain

namespace Chain

/-- Every failing path of `register_key_block` leaves the in-memory state
untouched; only the database insertion at the head of the method has
happened. -/
theorem registerKey_error_state (hf : HashFn) (s : Blockchain) (b : KeyBlock)
    (e : BlockchainError) (h : (s.registerKeyBlock hf b).2 = .error e) :
    (s.registerKeyBlock hf b).1 =
      { s with database := dbInsert s.database s.blocks.length (Block.keyBlock b) } := by
  simp only [Blockchain.registerKeyBlock] at h ⊢
  split at h
  · rfl
  · split at h
    · rfl
    · split at h
      · simp at h
      · rename_i hepoch
        simp only [if_neg hepoch]

/-- The success shape of `register_key_block`. -/
theorem registerKey_ok_shape (hf : HashFn) (s : Blockchain) (b : KeyBlock)
    (h : (s.registerKeyBlock hf b).2 = .ok ()) :
    checkPrevious hf s.blocks b.header.base.previous = none ∧
    lookupA s.block_by_hash (hashBlock hf (Block.keyBlock b)) = none ∧
    s.epoch + 1 = b.header.base.epoch ∧
    (s.registerKeyBlock hf b).1 =
      { s with
          database := dbInsert s.database s.blocks.length (Block.keyBlock b)
          blocks := s.blocks ++ [Block.keyBlock b]
          block_by_hash :=
            (hashBlock hf (Block.keyBlock b), s.blocks.length) :: s.block_by_hash
          epoch := s.epoch + 1
          last_epoch_change := s.blocks.length
          leader := b.header.leader
          facilitator := b.header.facilitator
          validators := s.escrow.multiget b.header.validators } := by
  simp only [Blockchain.registerKeyBlock] at h ⊢
  split at h
  · simp at h
  · split at h
    · simp at h
    · split at h
      · rename_i x1 hprev x2 hhash hepoch
        refine ⟨hprev, hhash, hepoch, ?_⟩
        simp only [if_pos hepoch]
      · simp at h

end Chain

namespace Chain

/-- Full case analysis of `register_monetary_block`: either some check failed
(or an abort fired) and only the database write happened, or every check
passed and the commit shape is explicit. -/
theorem registerMon_cases (hf : HashFn) (s : Blockchain) (b : MonetaryBlock) (ts : Nat) :
    (∃ e, s.registerMonetaryBlock hf b ts =
      ({ s with database := dbInsert s.database s.blocks.length (Block.monetaryBlock b) },
        .error e)) ∨
    ∃ burned created outputs_pathes blocks1 index1 pruned index2,
      checkPrevious hf s.blocks b.header.base.previous = none ∧
      lookupA s.block_by_hash (hashBlock hf (Block.monetaryBlock b)) = none ∧
      computeBurned hf
        { s with database := dbInsert s.database s.blocks.length (Block.monetaryBlock b) }
        b.body.inputs = .ok burned ∧
      checkOutputs hf
        { s with database := dbInsert s.database s.blocks.length (Block.monetaryBlock b) }
        b.body.outputs.leafs = .ok (created, outputs_pathes) ∧
      fee_a b.header.monetary_adjustment + burned - created = gMulG b.header.gamma ∧
      fee_a (s.monetary_adjustment + b.header.monetary_adjustment) +
        (s.burned + burned) - (s.created + created) =
        gMulG (s.gamma + b.header.gamma) ∧
      pruneInputs hf s.blocks s.output_by_hash b.body.inputs =
        some (blocks1, index1, pruned) ∧
      insertOutputs s.blocks.length index1 outputs_pathes = some index2 ∧
      s.registerMonetaryBlock hf b ts =
        ({ s with
            database := dbInsert s.database s.blocks.length (Block.monetaryBlock b)
            blocks :=
              blocks1 ++ [Block.monetaryBlock { b with body := { b.body with inputs := [] } }]
            block_by_hash :=
              (hashBlock hf (Block.monetaryBlock b), s.blocks.length) :: s.block_by_hash
            output_by_hash := index2
            escrow :=
              stakeNew hf (unstakePruned hf s.escrow ts pruned)
                (b.header.base.timestamp + BONDING_TIME)
                (b.body.outputs.leafs.map (fun op => op.1))
            created := s.created + created
            burned := s.burned + burned
            gamma := s.gamma + b.header.gamma
            monetary_adjustment := s.monetary_adjustment + b.header.monetary_adjustment },
          .ok (pruned, b.body.outputs.leafs.map (fun op => op.1))) := by
  simp only [Blockchain.registerMonetaryBlock]
  split
  · exact Or.inl ⟨_, rfl⟩
  · split
    · exact Or.inl ⟨_, rfl⟩
    · split
      · exact Or.inl ⟨_, rfl⟩
      · split
        · exact Or.inl ⟨_, rfl⟩
        · split
          · split
            · split
              · exact Or.inl ⟨_, rfl⟩
              · split
                · exact Or.inl ⟨_, rfl⟩
                · rename_i x5 hprev x4 hhash x3 burned hburn x2 created outputs_pathes
                    hout hlocal hglobal x1 blocks1 index1 pruned hprune x0 index2 hins
                  exact Or.inr ⟨burned, created, outputs_pathes, blocks1, index1, pruned,
                    index2, hprev, hhash, hburn, hout, hlocal, hglobal, hprune, hins, rfl⟩
            · exact Or.inl ⟨_, rfl⟩
          · exact Or.inl ⟨_, rfl⟩

end Chain

namespace Chain

theorem registerMon_error_state (hf : HashFn) (s : Blockchain) (b : MonetaryBlock)
    (ts : Nat) (e : BlockchainError)
    (h : (s.registerMonetaryBlock hf b ts).2 = .error e) :
    (s.registerMonetaryBlock hf b ts).1 =
      { s with database := dbInsert s.database s.blocks.length (Block.monetaryBlock b) } := by
  rcases registerMon_cases hf s b ts with ⟨e2, heq⟩ |
    ⟨_, _, _, _, _, _, _, _, _, _, _, _, _, _, _, hpair⟩
  · rw [heq]
  · rw [hpair] at h
    simp at h

theorem registerMon_ok_shape (hf : HashFn) (s : Blockchain) (b : MonetaryBlock)
    (ts : Nat) (v : List Output × List Output)
    (h : (s.registerMonetaryBlock hf b ts).2 = .ok v) :
    ∃ burned created outputs_pathes blocks1 index1 pruned index2,
      checkPrevious hf s.blocks b.header.base.previous = none ∧
      lookupA s.block_by_hash (hashBlock hf (Block.monetaryBlock b)) = none ∧
      computeBurned hf
        { s with database := dbInsert s.database s.blocks.length (Block.monetaryBlock b) }
        b.body.inputs = .ok burned ∧
      checkOutputs hf
        { s with database := dbInsert s.database s.blocks.length (Block.monetaryBlock b) }
        b.body.outputs.leafs = .ok (created, outputs_pathes) ∧
      fee_a b.header.monetary_adjustment + burned - created = gMulG b.header.gamma ∧
      fee_a (s.monetary_adjustment + b.header.monetary_adjustment) +
        (s.burned + burned) - (s.created + created) =
        gMulG (s.gamma + b.header.gamma) ∧
      pruneInputs hf s.blocks s.output_by_hash b.body.inputs =
        some (blocks1, index1, pruned) ∧
      insertOutputs s.blocks.length index1 outputs_pathes = some index2 ∧
      v = (pruned, b.body.outputs.leafs.map (fun op => op.1)) ∧
      (s.registerMonetaryBlock hf b ts).1 =
        { s with
            database := dbInsert s.database s.blocks.length (Block.monetaryBlock b)
            blocks :=
              blocks1 ++ [Block.monetaryBlock { b with body := { b.body with inputs := [] } }]
            block_by_hash :=
              (hashBlock hf (Block.monetaryBlock b), s.blocks.length) :: s.block_by_hash
            output_by_hash := index2
            escrow :=
              stakeNew hf (unstakePruned hf s.escrow ts pruned)
                (b.header.base.timestamp + BONDING_TIME)
                (b.body.outputs.leafs.map (fun op => op.1))
            created := s.created + created
            burned := s.burned + burned
            gamma := s.gamma + b.header.gamma
            monetary_adjustment := s.monetary_adjustment + b.header.monetary_adjustment } := by
  rcases registerMon_cases hf s b ts with ⟨e2, heq⟩ |
    ⟨burned, created, outputs_pathes, blocks1, index1, pruned, index2,
      hprev, hhash, hburn, hout, hlocal, hglobal, hprune, hins, hpair⟩
  · rw [heq] at h
    simp at h
  · rw [hpair] at h
    simp only [Except.ok.injEq] at h
    exact ⟨burned, created, outputs_pathes, blocks1, index1, pruned, index2,
      hprev, hhash, hburn, hout, hlocal, hglobal, hprune, hins, h.symm,
      by rw [hpair]⟩

theorem computeBurned_ne_panicGlobal (hf : HashFn) (s : Blockchain) (l : List Nat) :
    computeBurned hf s l ≠ .error .panicGlobalBalance := by
  induction l with
  | nil => simp [computeBurned]
  | cons h rest ih =>
    simp only [computeBurned]
    split
    · simp
    · split
      · split
        · split
          · split
            · intro hc
              rcases hm : computeBurned hf s rest with e2 | v2
              · rw [hm] at hc
                simp only [Except.map] at hc
                cases hc
                exact ih (by rw [hm])
              · rw [hm] at hc
                simp [Except.map] at hc
            · simp
          · simp
        · simp
      · simp

theorem checkOutputs_ne_panicGlobal (hf : HashFn) (s : Blockchain)
    (l : List (Output × MerklePath)) :
    checkOutputs hf s l ≠ .error .panicGlobalBalance := by
  induction l with
  | nil => simp [checkOutputs]
  | cons op rest ih =>
    rcases op with ⟨o, p⟩
    simp only [checkOutputs]
    split
    · simp
    · split
      · intro hc
        rcases hm : checkOutputs hf s rest with e2 | v2
        · rw [hm] at hc
          simp only [Except.map] at hc
          cases hc
          exact ih (by rw [hm])
        · rw [hm] at hc
          simp [Except.map] at hc
      · simp

theorem checkPrevious_error (hf : HashFn) (blocks : List Block) (prev : Nat)
    (e : BlockchainError) (h : checkPrevious hf blocks prev = some e) :
    ∃ x y, e = .previousHashMismatch x y := by
  simp only [checkPrevious] at h
  split at h
  · cases h
  · split at h
    · cases h
    · cases h
      exact ⟨_, _, rfl⟩

/-- The only source of the "Invalid global monetary balance" panic is the
explicit global check after a passing local check. -/
theorem registerMon_panicGlobal (hf : HashFn) (s : Blockchain) (b : MonetaryBlock)
    (ts : Nat) (h : (s.registerMonetaryBlock hf b ts).2 = .error .panicGlobalBalance) :
    ∃ burned created outputs_pathes,
      computeBurned hf
        { s with database := dbInsert s.database s.blocks.length (Block.monetaryBlock b) }
        b.body.inputs = .ok burned ∧
      checkOutputs hf
        { s with database := dbInsert s.database s.blocks.length (Block.monetaryBlock b) }
        b.body.outputs.leafs = .ok (created, outputs_pathes) ∧
      fee_a b.header.monetary_adjustment + burned - created = gMulG b.header.gamma ∧
      ¬ (fee_a (s.monetary_adjustment + b.header.monetary_adjustment) +
          (s.burned + burned) - (s.created + created) =
          gMulG (s.gamma + b.header.gamma)) := by
  simp only [Blockchain.registerMonetaryBlock] at h
  split at h
  · rename_i x0 e0 hprevE
    simp only [Except.error.injEq] at h
    rcases checkPrevious_error hf _ _ _ hprevE with ⟨x, y, he⟩
    rw [h] at he
    cases he
  · split at h
    · simp at h
    · split at h
      · rename_i x3 e3 hb
        simp only [Except.error.injEq] at h
        rw [h] at hb
        exact absurd hb (computeBurned_ne_panicGlobal hf _ _)
      · split at h
        · rename_i x3 burned hburn x2 e2 hc
          simp only [Except.error.injEq] at h
          rw [h] at hc
          exact absurd hc (checkOutputs_ne_panicGlobal hf _ _)
        · split at h
          · split at h
            · split at h
              · simp at h
              · split at h
                · simp at h
                · simp at h
            · rename_i x5 hprev x4 hhash x3 burned hburn x2 created outputs_pathes hout
                hlocal hglobal
              exact ⟨burned, created, outputs_pathes, hburn, hout, hlocal, hglobal⟩
          · simp at h

/-- Additivity of the balance identity in the commitment group. -/
theorem balance_add (ma bma : Int) (bu cr bb cb : ECp) (g bg : Int)
    (h1 : fee_a ma + bu - cr = gMulG g) (h2 : fee_a bma + bb - cb = gMulG bg) :
    fee_a (ma + bma) + (bu + bb) - (cr + cb) = gMulG (g + bg) := by
  rcases bu with ⟨bu1, bu2⟩
  rcases cr with ⟨cr1, cr2⟩
  rcases bb with ⟨bb1, bb2⟩
  rcases cb with ⟨cb1, cb2⟩
  simp only [fee_a, gMulG, Prod.mk_add_mk, Prod.mk_sub_mk, Prod.mk.injEq] at *
  constructor <;> omega

/-- I2 holds in every reachable state. -/
theorem reachable_globalBalance (hf : HashFn) (s : Blockchain) (h : Reachable hf s) :
    globalBalance s := by
  induction h with
  | init =>
    simp [globalBalance, Blockchain.empty, fee_a, gMulG, ECp.inf]
  | keyStep s b hr hok ih =>
    rcases registerKey_ok_shape hf s b hok with ⟨_, _, _, hshape⟩
    rw [hshape]
    exact ih
  | monStep s b ts v hr hok ih =>
    rcases registerMon_ok_shape hf s b ts v hok with
      ⟨burned, created, outputs_pathes, blocks1, index1, pruned, index2,
        _, _, _, _, _, hglobal, _, _, _, hshape⟩
    rw [hshape]
    exact hglobal

end Chain

/-! ## Claim C1: global monetary conservation -/

/-- C1: starting from the empty chain, every state reached by successful
block applications satisfies I2 (`fee_a(monetary_adjustment) + burned −
created = gamma·G`); moreover, whenever I2 holds before a
`register_monetary_block` call, the "Invalid global monetary balance" panic
branch is unreachable (in particular when the local check passes — otherwise
the call errors out even earlier), and I2 holds after any successful call. -/
theorem C1_global_conservation (hf : Chain.HashFn) :
    (∀ s : Chain.Blockchain, Chain.Reachable hf s → Chain.globalBalance s) ∧
    (∀ (s : Chain.Blockchain) (b : Chain.MonetaryBlock) (ts : Nat),
      Chain.globalBalance s →
        (s.registerMonetaryBlock hf b ts).2 ≠ .error .panicGlobalBalance) ∧
    (∀ (s : Chain.Blockchain) (b : Chain.MonetaryBlock) (ts : Nat)
      (v : List Chain.Output × List Chain.Output),
      (s.registerMonetaryBlock hf b ts).2 = .ok v →
        Chain.globalBalance (s.registerMonetaryBlock hf b ts).1) := by
  refine ⟨fun s h => Chain.reachable_globalBalance hf s h, ?_, ?_⟩
  · intro s b ts hI2 h
    rcases Chain.registerMon_panicGlobal hf s b ts h with
      ⟨burned, created, outputs_pathes, _, _, hlocal, hglobal⟩
    exact hglobal (Chain.balance_add _ _ _ _ _ _ _ _ hI2 hlocal)
  · intro s b ts v h
    rcases Chain.registerMon_ok_shape hf s b ts v h with
      ⟨burned, created, outputs_pathes, blocks1, index1, pruned, index2,
        _, _, _, _, _, hglobal, _, _, _, hshape⟩
    rw [hshape]
    exact hglobal

/-- Witness for C1 at the concrete chain `s1` and block `bUnbal`. -/
theorem C1_global_conservation_witness :
    Chain.globalBalance Chain.s1 ∧
    (Chain.s1.registerMonetaryBlock Chain.hf0 Chain.bUnbal 0).2 ≠
      .error .panicGlobalBalance := by
  have hreach : Chain.Reachable Chain.hf0 Chain.s1 :=
    Chain.Reachable.monStep Chain.Blockchain.empty Chain.b0 0 ([], [Chain.o0])
      Chain.Reachable.init (by decide)
  have h1 := (C1_global_conservation Chain.hf0).1 Chain.s1 hreach
  exact ⟨h1, (C1_global_conservation Chain.hf0).2.1 Chain.s1 Chain.bUnbal 0 h1⟩

/-! ## Claim C2: transactional apply (corrected) -/

/-- Counterexample to C2 as stated: a validation failure (`MissingUTXO`)
leaves the in-memory state alone but has already written the rejected block
into the persisted store, so the "entire chain state … and the persisted
block store" is not unchanged. -/
theorem C2_transactional_apply_counterexample :
    (Chain.Blockchain.empty.registerMonetaryBlock Chain.hf0 Chain.bMissing 0).2 =
      .error (.missingUTXO 0) ∧
    (Chain.Blockchain.empty.registerMonetaryBlock Chain.hf0 Chain.bMissing 0).1.database ≠
      Chain.Blockchain.empty.database := by
  constructor
  · decide
  · decide

/-- C2 (amended): on any of the five validation errors both register
functions leave every in-memory component (block list, block_by_hash, UTXO
index, escrow, accumulators, epoch) unchanged; the persisted block store is
the sole exception, having received the rejected block at the next height
key before validation began. -/
theorem C2_transactional_apply (hf : Chain.HashFn) (s : Chain.Blockchain)
    (b : Chain.MonetaryBlock) (kb : Chain.KeyBlock) (ts : Nat)
    (e : Chain.BlockchainError) (_he : e.isValidationError) :
    ((s.registerMonetaryBlock hf b ts).2 = .error e →
      (s.registerMonetaryBlock hf b ts).1 =
        { s with database :=
            Chain.dbInsert s.database s.blocks.length (Chain.Block.monetaryBlock b) }) ∧
    ((s.registerKeyBlock hf kb).2 = .error e →
      (s.registerKeyBlock hf kb).1 =
        { s with database :=
            Chain.dbInsert s.database s.blocks.length (Chain.Block.keyBlock kb) }) :=
  ⟨fun h => Chain.registerMon_error_state hf s b ts e h,
    fun h => Chain.registerKey_error_state hf s kb e h⟩

/-- Witness for the amended C2 at the `MissingUTXO` failure of `bMissing`. -/
theorem C2_transactional_apply_witness :
    Chain.BlockchainError.isValidationError (.missingUTXO 0) ∧
    (Chain.Blockchain.empty.registerMonetaryBlock Chain.hf0 Chain.bMissing 0).1 =
      { Chain.Blockchain.empty with
          database := Chain.dbInsert Chain.Blockchain.empty.database 0
            (Chain.Block.monetaryBlock Chain.bMissing) } :=
  ⟨trivial,
    (C2_transactional_apply Chain.hf0 Chain.Blockchain.empty Chain.bMissing Chain.kb0 0
      (.missingUTXO 0) trivial).1 (by decide)⟩

/-! ## Claim C10: key-block frame property (corrected) -/

/-- Counterexample to C10 as stated: a successful `register_key_block` also
updates the persisted block store (and the wall-clock timestamp), so it does
not update *only* the listed in-memory components. -/
theorem C10_key_frame_counterexample :
    (Chain.Blockchain.empty.registerKeyBlock Chain.hf0 Chain.kb0).2 = .ok () ∧
    (Chain.Blockchain.empty.registerKeyBlock Chain.hf0 Chain.kb0).1.database ≠
      Chain.Blockchain.empty.database := by
  constructor
  · decide
  · decide

/-- C10 (amended): a successful `register_key_block` leaves the UTXO index,
the escrow stake records and all four monetary accumulators exactly
unchanged, and updates only the block list, `block_by_hash`, `epoch`,
`last_epoch_change`, the leader/facilitator/validators snapshots — and the
persisted block store, which receives the key block at the next height. -/
theorem C10_key_frame (hf : Chain.HashFn) (s : Chain.Blockchain) (b : Chain.KeyBlock)
    (h : (s.registerKeyBlock hf b).2 = .ok ()) :
    (s.registerKeyBlock hf b).1.output_by_hash = s.output_by_hash ∧
    (s.registerKeyBlock hf b).1.escrow = s.escrow ∧
    (s.registerKeyBlock hf b).1.created = s.created ∧
    (s.registerKeyBlock hf b).1.burned = s.burned ∧
    (s.registerKeyBlock hf b).1.gamma = s.gamma ∧
    (s.registerKeyBlock hf b).1.monetary_adjustment = s.monetary_adjustment ∧
    (s.registerKeyBlock hf b).1 =
      { s with
          database := Chain.dbInsert s.database s.blocks.length (Chain.Block.keyBlock b)
          blocks := s.blocks ++ [Chain.Block.keyBlock b]
          block_by_hash :=
            (Chain.hashBlock hf (Chain.Block.keyBlock b), s.blocks.length) ::
              s.block_by_hash
          epoch := s.epoch + 1
          last_epoch_change := s.blocks.length
          leader := b.header.leader
          facilitator := b.header.facilitator
          validators := s.escrow.multiget b.header.validators } := by
  rcases Chain.registerKey_ok_shape hf s b h with ⟨_, _, _, hshape⟩
  rw [hshape]
  exact ⟨rfl, rfl, rfl, rfl, rfl, rfl, rfl⟩

/-- Witness for the amended C10 at the empty chain and `kb0`. -/
theorem C10_key_frame_witness :
    (Chain.Blockchain.empty.registerKeyBlock Chain.hf0 Chain.kb0).1.output_by_hash =
      Chain.Blockchain.empty.output_by_hash ∧
    (Chain.Blockchain.empty.registerKeyBlock Chain.hf0 Chain.kb0).1.escrow =
      Chain.Blockchain.empty.escrow :=
  ⟨(C10_key_frame Chain.hf0 Chain.Blockchain.empty Chain.kb0 (by decide)).1,
    (C10_key_frame Chain.hf0 Chain.Blockchain.empty Chain.kb0 (by decide)).2.1⟩

/-! ## Well-formedness machinery -/

theorem listGet?_of_ge {α : Type} (l : List α) (i : Nat) (h : l.length ≤ i) :
    l.get? i = none := by
  induction l generalizing i with
  | nil => rfl
  | cons x xs ih =>
    cases i with
    | zero => simp at h
    | succ n => exact ih n (by simpa using h)

namespace Chain

theorem checkOutputs_pathes (hf : HashFn) (s : Blockchain)
    (l : List (Output × MerklePath)) (c : ECp) (ops : List (Nat × MerklePath))
    (h : checkOutputs hf s l = .ok (c, ops)) :
    ops = l.map (fun op => (hf.out op.1, op.2)) := by
  induction l generalizing c ops with
  | nil =>
    simp only [checkOutputs] at h
    cases h
    rfl
  | cons op rest ih =>
    rcases op with ⟨o, p⟩
    simp only [checkOutputs] at h
    split at h
    · cases h
    · split at h
      · rcases hm : checkOutputs hf s rest with e2 | v2
        · rw [hm] at h
          simp [Except.map] at h
        · rw [hm] at h
          simp only [Except.map, Except.ok.injEq] at h
          rcases v2 with ⟨c2, ops2⟩
          cases h
          simp only [List.map]
          rw [ih c2 ops2 (by rw [hm])]
      · cases h

theorem checkOutputs_fresh (hf : HashFn) (s : Blockchain)
    (l : List (Output × MerklePath)) (c : ECp) (ops : List (Nat × MerklePath))
    (h : checkOutputs hf s l = .ok (c, ops)) :
    ∀ op ∈ l, lookupA s.output_by_hash (hf.out op.1) = none := by
  induction l generalizing c ops with
  | nil => intro op hop; simp at hop
  | cons op0 rest ih =>
    rcases op0 with ⟨o, p⟩
    simp only [checkOutputs] at h
    split at h
    · cases h
    · rename_i hfresh
      split at h
      · rcases hm : checkOutputs hf s rest with e2 | v2
        · rw [hm] at h
          simp [Except.map] at h
        · rcases v2 with ⟨c2, ops2⟩
          intro op hop
          rcases List.mem_cons.mp hop with heq | hmem
          · cases heq
            exact hfresh
          · exact ih c2 ops2 (by rw [hm]) op hmem
      · cases h

/-- Success shape of the registration loop: inserted keys resolve to the new
block id with a path listed in `ops`; all other keys are untouched. -/
theorem insertOutputs_lookup (block_id : Nat) (ix ix2 : List (Nat × OutputKey))
    (ops : List (Nat × MerklePath)) (h : insertOutputs block_id ix ops = some ix2)
    (q : Nat) :
    (q ∈ ops.map Prod.fst →
      ∃ p, lookupA ix2 q = some ⟨block_id, p⟩ ∧ (q, p) ∈ ops) ∧
    (q ∉ ops.map Prod.fst → lookupA ix2 q = lookupA ix q) := by
  induction ops generalizing ix with
  | nil =>
    simp only [insertOutputs] at h
    cases h
    exact ⟨fun hq => by simp at hq, fun _ => rfl⟩
  | cons hp rest ih =>
    rcases hp with ⟨h0, p0⟩
    simp only [insertOutputs] at h
    split at h
    · cases h
    · rename_i hfresh
      have hrec := ih ((h0, (⟨block_id, p0⟩ : OutputKey)) :: ix) h
      constructor
      · intro hq
        by_cases hq0 : q ∈ rest.map Prod.fst
        · rcases hrec.1 hq0 with ⟨p, hl, hm⟩
          exact ⟨p, hl, List.mem_cons_of_mem _ hm⟩
        · have hq1 : q = h0 := by
            rcases List.mem_map.mp hq with ⟨⟨a, b⟩, hmem, hab⟩
            rcases List.mem_cons.mp hmem with heq | hmem2
            · cases heq; exact hab.symm
            · exact absurd (List.mem_map.mpr ⟨_, hmem2, hab⟩) hq0
          have hl := hrec.2 hq0
          rw [hl]
          refine ⟨p0, ?_, by rw [hq1]; exact List.mem_cons_self _ _⟩
          simp [lookupA, hq1]
      · intro hq
        have hq0 : q ∉ rest.map Prod.fst := fun hc =>
          hq (by simp only [List.map, List.mem_cons]; exact Or.inr hc)
        have hqh : q ≠ h0 := fun hc =>
          hq (by simp only [List.map, List.mem_cons]; exact Or.inl hc)
        have hl := hrec.2 hq0
        rw [hl]
        simp only [lookupA]
        rw [if_neg (fun hc => hqh hc.symm)]

/-- The spend loop preserves index coherence, the block count and the
per-position block hashes. -/
theorem pruneInputs_props (hf : HashFn) (blocks blocks1 : List Block)
    (ix ix1 : List (Nat × OutputKey)) (l : List Nat) (pruned : List Output)
    (hcoh : cohIndex hf blocks ix)
    (h : pruneInputs hf blocks ix l = some (blocks1, ix1, pruned)) :
    cohIndex hf blocks1 ix1 ∧ blocks1.length = blocks.length ∧
      ∀ i, (blocks1.get? i).map (hashBlock hf) = (blocks.get? i).map (hashBlock hf) := by
  induction l generalizing blocks ix pruned with
  | nil =>
    simp only [pruneInputs] at h
    cases h
    exact ⟨hcoh, rfl, fun _ => rfl⟩
  | cons h0 rest ih =>
    simp only [pruneInputs] at h
    split at h
    · cases h
    · rename_i k hk
      split at h
      · rename_i mb hmb
        split at h
        · rename_i tree o hprune
          split at h
          · rename_i bs2 ix2 os2 hrec
            cases h
            -- facts about the pruned entry
            rcases hcoh h0 k hk with ⟨mb0, o0, hget0, hlook0, hhash0⟩
            rw [hmb] at hget0
            simp only [Option.some.injEq, Block.monetaryBlock.injEq] at hget0
            subst hget0
            -- the new (blocks, index) pair stays coherent
            have hcoh2 : cohIndex hf
                (blocks.set k.block_id
                  (Block.monetaryBlock { mb with body := { mb.body with outputs := tree } }))
                (removeA ix h0) := by
              intro h2 k2 hk2
              rw [lookupA_removeA] at hk2
              by_cases hh : h2 = h0
              · simp [hh] at hk2
              · rw [if_neg hh] at hk2
                rcases hcoh h2 k2 hk2 with ⟨mb2, o2, hget2, hlook2, hhash2⟩
                by_cases hb : k2.block_id = k.block_id
                · rw [hb, hmb] at hget2
                  cases hget2
                  have hpne : k2.path ≠ k.path := by
                    intro hc
                    rw [hc] at hlook2
                    rw [hlook2] at hlook0
                    cases hlook0
                    exact hh (by rw [← hhash2, ← hhash0])
                  refine ⟨{ mb with body := { mb.body with outputs := tree } }, o2, ?_, ?_, hhash2⟩
                  · rw [hb]
                    exact listGet?_set_self blocks k.block_id _
                      (listGet?_lt_length blocks k.block_id _ hmb)
                  · have := MerkleTree.prune_lookup_ne hf.out mb.body.outputs k.path k2.path hpne
                    rw [hprune] at this
                    simp only at this
                    rw [← hlook2]
                    exact this
                · refine ⟨mb2, o2, ?_, hlook2, hhash2⟩
                  rw [listGet?_set_ne blocks k.block_id k2.block_id _
                    (fun hc => hb hc.symm)]
                  exact hget2
            rcases ih _ _ _ hcoh2 hrec with ⟨hc, hlen, hhashes⟩
            refine ⟨hc, ?_, ?_⟩
            · rw [hlen]
              exact listSet_length blocks k.block_id _
            · intro i
              rw [hhashes i]
              by_cases hb : i = k.block_id
              · rw [hb]
                rw [listGet?_set_self blocks k.block_id _
                  (listGet?_lt_length blocks k.block_id _ hmb), hmb]
                rfl
              · rw [listGet?_set_ne blocks _ _ _ (fun hc2 => hb hc2.symm)]
          · cases h
        · cases h
      · cases h

end Chain

namespace Chain

theorem WF_empty (hf : HashFn) : WF hf Blockchain.empty := by
  refine ⟨?_, rfl, rfl, ?_, ?_, ?_⟩
  · intro h k hl
    simp [Blockchain.empty, lookupA] at hl
  · intro i
    cases i <;> rfl
  · intro h i hl
    simp [Blockchain.empty, lookupA] at hl
  · intro i blk hget
    simp only [Blockchain.empty] at hget
    rw [listGet?_of_ge [] i (by simp)] at hget
    cases hget

theorem WF_key (hf : HashFn) (s : Blockchain) (b : KeyBlock)
    (hok : (s.registerKeyBlock hf b).2 = .ok ()) (wf : WF hf s) :
    WF hf (s.registerKeyBlock hf b).1 := by
  rcases registerKey_ok_shape hf s b hok with ⟨hprev, hhash, hepoch, hshape⟩
  have hNdb : (s.registerKeyBlock hf b).1.database =
      dbInsert s.database s.blocks.length (Block.keyBlock b) := by rw [hshape]
  have hNblocks : (s.registerKeyBlock hf b).1.blocks = s.blocks ++ [Block.keyBlock b] := by
    rw [hshape]
  have hNbbh : (s.registerKeyBlock hf b).1.block_by_hash =
      (hashBlock hf (Block.keyBlock b), s.blocks.length) :: s.block_by_hash := by rw [hshape]
  have hNix : (s.registerKeyBlock hf b).1.output_by_hash = s.output_by_hash := by rw [hshape]
  have hpl : (s.database.map Prod.snd).length = s.blocks.length := wf.db_len
  have hdb : dbInsert s.database s.blocks.length (Block.keyBlock b) =
      mkDb 0 (s.database.map Prod.snd ++ [Block.keyBlock b]) := by
    conv_lhs => rw [wf.db_eq]
    rw [← hpl]
    have h2 := dbInsert_mkDb (s.database.map Prod.snd) (Block.keyBlock b) 0
    rw [Nat.zero_add] at h2
    exact h2
  constructor
  · -- coherence: index unchanged, blocks only appended
    rw [hNblocks, hNix]
    intro h k hl
    rcases wf.coh h k hl with ⟨mb, o, hget, hlook, hh⟩
    exact ⟨mb, o, by
      rw [listGet?_append_left s.blocks _ k.block_id
        (listGet?_lt_length s.blocks k.block_id _ hget)]
      exact hget, hlook, hh⟩
  · -- canonical database shape
    rw [hNdb, hdb, mkDb_map_snd]
  · -- database length
    rw [hNdb, hNblocks, hdb, mkDb_map_snd]
    simp [hpl]
  · -- per-height hashes
    intro i
    rw [hNdb, hNblocks, hdb, mkDb_map_snd]
    rcases Nat.lt_trichotomy i (s.database.map Prod.snd).length with hlt | heq | hgt
    · rw [listGet?_append_left _ _ i hlt, listGet?_append_left s.blocks _ i (by omega)]
      exact wf.db_hash i
    · subst heq
      rw [listGet?_concat_self, hpl, listGet?_concat_self]
    · have hge1 : ((s.database.map Prod.snd) ++ [Block.keyBlock b]).length ≤ i := by
        simp only [List.length_append, List.length_cons, List.length_nil]
        omega
      have hge2 : (s.blocks ++ [Block.keyBlock b]).length ≤ i := by
        simp only [List.length_append, List.length_cons, List.length_nil]
        omega
      rw [listGet?_of_ge _ i hge1, listGet?_of_ge _ i hge2]
  · -- block_by_hash soundness
    intro h i hl
    rw [hNbbh] at hl
    rw [hNblocks]
    simp only [lookupA] at hl
    split at hl
    · rename_i hcond
      cases hl
      refine ⟨Block.keyBlock b, ?_, hcond⟩
      exact listGet?_concat_self s.blocks (Block.keyBlock b)
    · rcases wf.bbh_sound h i hl with ⟨blk, hget, hh⟩
      exact ⟨blk, by
        rw [listGet?_append_left s.blocks _ i (listGet?_lt_length s.blocks i _ hget)]
        exact hget, hh⟩
  · -- block_by_hash completeness
    intro i blk hget
    rw [hNblocks] at hget
    rw [hNbbh]
    rcases Nat.lt_or_ge i s.blocks.length with hlt | hge
    · rw [listGet?_append_left s.blocks _ i hlt] at hget
      have hcomp := wf.bbh_complete i blk hget
      have hne : hashBlock hf (Block.keyBlock b) ≠ hashBlock hf blk := by
        intro hc
        rw [← hc] at hcomp
        rw [hhash] at hcomp
        cases hcomp
      simp only [lookupA]
      rw [if_neg hne]
      exact hcomp
    · have hlen2 : i < s.blocks.length + 1 := by
        have := listGet?_lt_length _ i _ hget
        simpa using this
      have hi : i = s.blocks.length := by omega
      subst hi
      rw [listGet?_concat_self] at hget
      cases hget
      simp [lookupA]

end Chain

namespace Chain

theorem WF_mon (hf : HashFn) (s : Blockchain) (b : MonetaryBlock) (ts : Nat)
    (v : List Output × List Output)
    (hok : (s.registerMonetaryBlock hf b ts).2 = .ok v) (wf : WF hf s) :
    WF hf (s.registerMonetaryBlock hf b ts).1 := by
  rcases registerMon_ok_shape hf s b ts v hok with
    ⟨burned, created, ops, blocks1, index1, pruned, index2,
      hprev, hhash, hburn, hout, hlocal, hglobal, hprune, hins, hv, hshape⟩
  have hNdb : (s.registerMonetaryBlock hf b ts).1.database =
      dbInsert s.database s.blocks.length (Block.monetaryBlock b) := by rw [hshape]
  have hNblocks : (s.registerMonetaryBlock hf b ts).1.blocks =
      blocks1 ++ [Block.monetaryBlock { b with body := { b.body with inputs := [] } }] := by
    rw [hshape]
  have hNbbh : (s.registerMonetaryBlock hf b ts).1.block_by_hash =
      (hashBlock hf (Block.monetaryBlock b), s.blocks.length) :: s.block_by_hash := by
    rw [hshape]
  have hNix : (s.registerMonetaryBlock hf b ts).1.output_by_hash = index2 := by rw [hshape]
  have hpl : (s.database.map Prod.snd).length = s.blocks.length := wf.db_len
  rcases pruneInputs_props hf s.blocks blocks1 s.output_by_hash index1 b.body.inputs
      pruned wf.coh hprune with ⟨hcoh1, hlen1, hhashes1⟩
  have hops : ops = b.body.outputs.leafs.map (fun op => (hf.out op.1, op.2)) :=
    checkOutputs_pathes hf _ _ _ _ hout
  have hHeq : hashBlock hf
      (Block.monetaryBlock { b with body := { b.body with inputs := [] } }) =
      hashBlock hf (Block.monetaryBlock b) := rfl
  have hdb : dbInsert s.database s.blocks.length (Block.monetaryBlock b) =
      mkDb 0 (s.database.map Prod.snd ++ [Block.monetaryBlock b]) := by
    conv_lhs => rw [wf.db_eq]
    rw [← hpl]
    have h2 := dbInsert_mkDb (s.database.map Prod.snd) (Block.monetaryBlock b) 0
    rw [Nat.zero_add] at h2
    exact h2
  constructor
  · -- coherence
    rw [hNblocks, hNix]
    intro h k hl
    have hIL := insertOutputs_lookup s.blocks.length index1 index2 ops hins h
    by_cases hmem : h ∈ ops.map Prod.fst
    · rcases hIL.1 hmem with ⟨p, hlk, hpmem⟩
      have hk : some k = some (⟨s.blocks.length, p⟩ : OutputKey) := hl.symm.trans hlk
      simp only [Option.some.injEq] at hk
      subst hk
      rw [hops] at hpmem
      rcases List.mem_map.mp hpmem with ⟨⟨o, p2⟩, hmemLeaf, hfo⟩
      simp only [Prod.mk.injEq] at hfo
      rcases hfo with ⟨hfo1, hfo2⟩
      subst hfo2
      refine ⟨{ b with body := { b.body with inputs := [] } }, o, ?_, ?_, hfo1⟩
      · show (blocks1 ++ [_]).get? s.blocks.length = _
        rw [← hlen1]
        exact listGet?_concat_self blocks1 _
      · exact MerkleTree.lookup_of_mem_leafs b.body.outputs o p2 hmemLeaf
    · have hl1 : lookupA index1 h = some k := by
        rw [← hIL.2 hmem]
        exact hl
      rcases hcoh1 h k hl1 with ⟨mb, o, hget, hlook, hh⟩
      exact ⟨mb, o, by
        rw [listGet?_append_left blocks1 _ k.block_id
          (listGet?_lt_length blocks1 k.block_id _ hget)]
        exact hget, hlook, hh⟩
  · rw [hNdb, hdb, mkDb_map_snd]
  · rw [hNdb, hNblocks, hdb, mkDb_map_snd]
    simp [hpl, hlen1]
  · intro i
    rw [hNdb, hNblocks, hdb, mkDb_map_snd]
    rcases Nat.lt_trichotomy i (s.database.map Prod.snd).length with hlt | heq | hgt
    · rw [listGet?_append_left _ _ i hlt, listGet?_append_left blocks1 _ i (by omega)]
      rw [hhashes1 i]
      exact wf.db_hash i
    · subst heq
      rw [listGet?_concat_self]
      have : (s.database.map Prod.snd).length = blocks1.length := by omega
      rw [this, listGet?_concat_self]
      rfl
    · have hge1 : ((s.database.map Prod.snd) ++ [Block.monetaryBlock b]).length ≤ i := by
        simp only [List.length_append, List.length_cons, List.length_nil]
        omega
      have hge2 : (blocks1 ++
          [Block.monetaryBlock { b with body := { b.body with inputs := [] } }]).length ≤ i := by
        simp only [List.length_append, List.length_cons, List.length_nil]
        omega
      rw [listGet?_of_ge _ i hge1, listGet?_of_ge _ i hge2]
  · -- block_by_hash soundness
    intro h i hl
    rw [hNbbh] at hl
    rw [hNblocks]
    simp only [lookupA] at hl
    split at hl
    · rename_i hcond
      cases hl
      refine ⟨Block.monetaryBlock { b with body := { b.body with inputs := [] } }, ?_, ?_⟩
      · rw [← hlen1]
        exact listGet?_concat_self blocks1 _
      · rw [hHeq]
        exact hcond
    · rcases wf.bbh_sound h i hl with ⟨blk0, hget0, hh0⟩
      have hmap : (blocks1.get? i).map (hashBlock hf) = some h := by
        rw [hhashes1 i, hget0]
        simp [hh0]
      rcases Option.map_eq_some'.mp hmap with ⟨blk1, hget1, hh1⟩
      exact ⟨blk1, by
        rw [listGet?_append_left blocks1 _ i (listGet?_lt_length blocks1 i _ hget1)]
        exact hget1, hh1⟩
  · -- block_by_hash completeness
    intro i blk hget
    rw [hNblocks] at hget
    rw [hNbbh]
    rcases Nat.lt_or_ge i blocks1.length with hlt | hge
    · rw [listGet?_append_left blocks1 _ i hlt] at hget
      have hmap : (s.blocks.get? i).map (hashBlock hf) = some (hashBlock hf blk) := by
        rw [← hhashes1 i, hget]
        rfl
      rcases Option.map_eq_some'.mp hmap with ⟨blk0, hget0, hh0⟩
      have hcomp := wf.bbh_complete i blk0 hget0
      rw [hh0] at hcomp
      have hne : hashBlock hf (Block.monetaryBlock b) ≠ hashBlock hf blk := by
        intro hc
        rw [← hc] at hcomp
        rw [hhash] at hcomp
        cases hcomp
      simp only [lookupA]
      rw [if_neg hne]
      exact hcomp
    · have hlen2 : i < blocks1.length + 1 := by
        have := listGet?_lt_length _ i _ hget
        simpa using this
      have hi : i = blocks1.length := by omega
      subst hi
      rw [listGet?_concat_self] at hget
      cases hget
      show lookupA ((hashBlock hf (Block.monetaryBlock b), s.blocks.length) ::
        s.block_by_hash) (hashBlock hf (Block.monetaryBlock b)) = some blocks1.length
      rw [← hlen1]
      simp [lookupA]

end Chain

namespace Chain

theorem reachable_WF (hf : HashFn) (s : Blockchain) (h : Reachable hf s) : WF hf s := by
  induction h with
  | init => exact WF_empty hf
  | keyStep s b hr hok ih => exact WF_key hf s b hok ih
  | monStep s b ts v hr hok ih => exact WF_mon hf s b ts v hok ih

/-- A reachability certificate for the concrete chain `s1`. -/
theorem reachable_s1 : Reachable hf0 s1 :=
  Reachable.monStep Blockchain.empty b0 0 ([], [o0]) Reachable.init (by decide)

end Chain

/-! ## Claim C4: UTXO coherence -/

/-- C4: in every reachable state, a hash present in the UTXO index resolves
through `output_by_hash` to an output with that digest, and a hash absent
from the index resolves to `None`. -/
theorem C4_utxo_coherence (hf : Chain.HashFn) (s : Chain.Blockchain)
    (hreach : Chain.Reachable hf s) :
    (∀ h k, lookupA s.output_by_hash h = some k →
      ∃ o, s.outputByHash h = some o ∧ hf.out o = h) ∧
    (∀ h, lookupA s.output_by_hash h = none → s.outputByHash h = none) := by
  have wf := Chain.reachable_WF hf s hreach
  constructor
  · intro h k hl
    rcases wf.coh h k hl with ⟨mb, o, hget, hlook, hh⟩
    refine ⟨o, ?_, hh⟩
    simp only [Chain.Blockchain.outputByHash, hl, hget]
    exact hlook
  · intro h hl
    simp only [Chain.Blockchain.outputByHash, hl]

/-- Witness for C4 on the concrete chain `s1`: hash 1 is indexed and
resolves, hash 2 is unknown. -/
theorem C4_utxo_coherence_witness :
    (∃ o, Chain.s1.outputByHash 1 = some o ∧ Chain.hf0.out o = 1) ∧
    Chain.s1.outputByHash 2 = none :=
  ⟨(C4_utxo_coherence Chain.hf0 Chain.s1 Chain.reachable_s1).1 1 ⟨0, []⟩ (by decide),
    (C4_utxo_coherence Chain.hf0 Chain.s1 Chain.reachable_s1).2 2 (by decide)⟩

/-! ## Claim C6: block range query -/

/-- C6: in every reachable state, `blocks_range` returns `None` exactly when
`starting_hash` is not the hash of any applied (persisted) block, and
otherwise returns the persisted blocks strictly after the block with that
hash, in chain order, truncated to at most `count`. -/
theorem C6_blocks_range (hf : Chain.HashFn) (s : Chain.Blockchain)
    (hreach : Chain.Reachable hf s) (starting_hash count : Nat) :
    (s.blocksRange starting_hash count = none ↔
      ∀ i blk, (s.database.map Prod.snd).get? i = some blk →
        Chain.hashBlock hf blk ≠ starting_hash) ∧
    (∀ i blk, (s.database.map Prod.snd).get? i = some blk →
      Chain.hashBlock hf blk = starting_hash →
      s.blocksRange starting_hash count =
        some (((s.database.map Prod.snd).drop (i + 1)).take count)) := by
  have wf := Chain.reachable_WF hf s hreach
  have hmain : ∀ i blk, (s.database.map Prod.snd).get? i = some blk →
      Chain.hashBlock hf blk = starting_hash →
      lookupA s.block_by_hash starting_hash = some i := by
    intro i blk hget hh
    have hmap := wf.db_hash i
    rw [hget] at hmap
    rcases Option.map_eq_some'.mp hmap.symm with ⟨blk2, hget2, hh2⟩
    have := wf.bbh_complete i blk2 hget2
    rw [hh2, hh] at this
    exact this
  constructor
  · constructor
    · intro hnone i blk hget hh
      have := hmain i blk hget hh
      simp only [Chain.Blockchain.blocksRange, this] at hnone
      exact Option.noConfusion hnone
    · intro hall
      rcases hl : lookupA s.block_by_hash starting_hash with _ | i
      · simp only [Chain.Blockchain.blocksRange, hl]
      · exfalso
        rcases wf.bbh_sound starting_hash i hl with ⟨blk, hget, hh⟩
        have hmap := wf.db_hash i
        rw [hget] at hmap
        rcases Option.map_eq_some'.mp hmap with ⟨blkd, hgetd, hhd⟩
        exact hall i blkd hgetd (by rw [hhd, hh])
  · intro i blk hget hh
    have hl := hmain i blk hget hh
    simp only [Chain.Blockchain.blocksRange, hl]
    have hdrop : Chain.dbIterStarting s.database (i + 1) =
        (s.database.map Prod.snd).drop (i + 1) := by
      conv_lhs => rw [wf.db_eq]
      have := Chain.dbIterStarting_mkDb_drop (s.database.map Prod.snd) 0 (i + 1)
      rw [Nat.zero_add] at this
      exact this
    rw [hdrop]

/-- Witness for C6 on `s1`: the hash of its only block yields the (empty)
suffix; an unknown hash yields `None`. -/
theorem C6_blocks_range_witness :
    Chain.s1.blocksRange 100 5 =
      some (((Chain.s1.database.map Prod.snd).drop 1).take 5) ∧
    Chain.s1.blocksRange 999 5 = none := by
  constructor
  · exact (C6_blocks_range Chain.hf0 Chain.s1 Chain.reachable_s1 100 5).2 0
      (Chain.Block.monetaryBlock Chain.b0) (by decide) (by decide)
  · refine (C6_blocks_range Chain.hf0 Chain.s1 Chain.reachable_s1 999 5).1.mpr ?_
    intro i blk hget
    have hlt : i < (Chain.s1.database.map Prod.snd).length :=
      listGet?_lt_length _ i _ hget
    have h1 : (Chain.s1.database.map Prod.snd).length = 1 := by decide
    have hi : i = 0 := by omega
    subst hi
    have h0 : (Chain.s1.database.map Prod.snd).get? 0 =
        some (Chain.Block.monetaryBlock Chain.b0) := by decide
    rw [h0] at hget
    cases hget
    decide

namespace Chain

theorem computeBurned_congr (hf : HashFn) (s1 s2 : Blockchain)
    (hB : s1.blocks = s2.blocks) (hI : s1.output_by_hash = s2.output_by_hash) :
    ∀ l, computeBurned hf s1 l = computeBurned hf s2 l := by
  intro l
  induction l with
  | nil => rfl
  | cons h rest ih => simp only [computeBurned, hB, hI, ih]

theorem checkOutputs_congr (hf : HashFn) (s1 s2 : Blockchain)
    (hI : s1.output_by_hash = s2.output_by_hash) :
    ∀ l, checkOutputs hf s1 l = checkOutputs hf s2 l := by
  intro l
  induction l with
  | nil => rfl
  | cons op rest ih => simp only [checkOutputs, hI, ih]

theorem computeBurned_spec (hf : HashFn) (s : Blockchain)
    (hcoh : cohIndex hf s.blocks s.output_by_hash) :
    ∀ (l : List Nat) (ins : List Output) (bb : ECp),
      s.resolveInputs l = some ins → sumCommitments ins = some bb →
      computeBurned hf s l = .ok bb := by
  intro l
  induction l with
  | nil =>
    intro ins bb hres hsum
    simp only [Blockchain.resolveInputs] at hres
    cases hres
    simp only [sumCommitments] at hsum
    cases hsum
    rfl
  | cons h rest ih =>
    intro ins bb hres hsum
    simp only [Blockchain.resolveInputs] at hres
    rcases hO : s.outputByHash h with _ | o
    · rw [hO] at hres
      cases hres
    · rw [hO] at hres
      rcases hR : s.resolveInputs rest with _ | ins2
      · rw [hR] at hres
        simp [Option.map] at hres
      · rw [hR] at hres
        simp only [Option.map] at hres
        cases hres
        rcases hl : lookupA s.output_by_hash h with _ | k
        · have hO2 : s.outputByHash h = none := by
            simp only [Blockchain.outputByHash, hl]
          rw [hO] at hO2
          cases hO2
        · rcases hcoh h k hl with ⟨mb, o2, hget, hlook, hh⟩
          have hO2 : s.outputByHash h = some o2 := by
            simp only [Blockchain.outputByHash, hl, hget]
            exact hlook
          have ho : o2 = o := by
            have h3 := hO.symm.trans hO2
            simp only [Option.some.injEq] at h3
            exact h3.symm
          subst ho
          simp only [sumCommitments] at hsum
          rcases hcmt : o2.commitment with _ | c
          · rw [hcmt] at hsum
            cases hsum
          · rw [hcmt] at hsum
            rcases hS : sumCommitments ins2 with _ | bb2
            · rw [hS] at hsum
              simp [Option.map] at hsum
            · rw [hS] at hsum
              simp only [Option.map] at hsum
              cases hsum
              simp only [computeBurned, hl, hget, hlook, if_pos hh, hcmt]
              rw [ih ins2 bb2 hR hS]
              rfl

theorem checkOutputs_spec (hf : HashFn) (s : Blockchain) :
    ∀ (l : List (Output × MerklePath)) (cb : ECp),
      (∀ op ∈ l, lookupA s.output_by_hash (hf.out op.1) = none) →
      sumCommitments (l.map (fun op => op.1)) = some cb →
      checkOutputs hf s l = .ok (cb, l.map (fun op => (hf.out op.1, op.2))) := by
  intro l
  induction l with
  | nil =>
    intro cb hfresh hsum
    simp only [List.map, sumCommitments] at hsum
    cases hsum
    rfl
  | cons op rest ih =>
    rcases op with ⟨o, p⟩
    intro cb hfresh hsum
    simp only [List.map, sumCommitments] at hsum
    rcases hcmt : o.commitment with _ | c
    · rw [hcmt] at hsum
      cases hsum
    · rw [hcmt] at hsum
      rcases hS : sumCommitments (rest.map (fun op => op.1)) with _ | cb2
      · rw [hS] at hsum
        simp [Option.map] at hsum
      · rw [hS] at hsum
        simp only [Option.map] at hsum
        cases hsum
        have hfresh0 := hfresh (o, p) (List.mem_cons_self _ _)
        simp only [checkOutputs, hfresh0, hcmt]
        rw [ih cb2 (fun op2 hm => hfresh op2 (List.mem_cons_of_mem _ hm)) hS]
        rfl

end Chain

/-! ## Claim C3: local block balance check -/

/-- C3: on a reachable chain, for a monetary block that passes the
previous-hash, block-hash, input-resolution and output-uniqueness checks and
whose commitments decompress, `register_monetary_block` returns
`InvalidBlockBalance` exactly when `fee_a(monetary_adjustment) + burned −
created ≠ gamma·G`, with `burned`/`created` the spec-side commitment sums
over the resolved inputs and the block's outputs. -/
theorem C3_local_balance_check (hf : Chain.HashFn) (s : Chain.Blockchain)
    (b : Chain.MonetaryBlock) (ts : Nat) (hreach : Chain.Reachable hf s)
    (hprev : Chain.checkPrevious hf s.blocks b.header.base.previous = none)
    (hhash : lookupA s.block_by_hash
      (Chain.hashBlock hf (Chain.Block.monetaryBlock b)) = none)
    (ins : List Chain.Output) (hres : s.resolveInputs b.body.inputs = some ins)
    (burnedB : Chain.ECp) (hsumb : Chain.sumCommitments ins = some burnedB)
    (createdB : Chain.ECp)
    (hsumc : Chain.sumCommitments (b.body.outputs.leafs.map (fun op => op.1)) =
      some createdB)
    (hfresh : ∀ op ∈ b.body.outputs.leafs,
      lookupA s.output_by_hash (hf.out op.1) = none) :
    (s.registerMonetaryBlock hf b ts).2 = .error .invalidBlockBalance ↔
      Chain.fee_a b.header.monetary_adjustment + burnedB - createdB ≠
        Chain.gMulG b.header.gamma := by
  have wf := Chain.reachable_WF hf s hreach
  have hcb : Chain.computeBurned hf
      { s with
          database :=
            Chain.dbInsert s.database s.blocks.length (Chain.Block.monetaryBlock b) }
      b.body.inputs = .ok burnedB := by
    exact (Chain.computeBurned_congr hf
        { s with
            database :=
              Chain.dbInsert s.database s.blocks.length (Chain.Block.monetaryBlock b) }
        s rfl rfl b.body.inputs).trans
      (Chain.computeBurned_spec hf s wf.coh b.body.inputs ins burnedB hres hsumb)
  have hco : Chain.checkOutputs hf
      { s with
          database :=
            Chain.dbInsert s.database s.blocks.length (Chain.Block.monetaryBlock b) }
      b.body.outputs.leafs =
      .ok (createdB, b.body.outputs.leafs.map (fun op => (hf.out op.1, op.2))) := by
    exact (Chain.checkOutputs_congr hf
        { s with
            database :=
              Chain.dbInsert s.database s.blocks.length (Chain.Block.monetaryBlock b) }
        s rfl b.body.outputs.leafs).trans
      (Chain.checkOutputs_spec hf s b.body.outputs.leafs createdB hfresh hsumc)
  simp only [Chain.Blockchain.registerMonetaryBlock, hprev, hhash, hcb, hco]
  by_cases hbal : Chain.fee_a b.header.monetary_adjustment + burnedB - createdB =
      Chain.gMulG b.header.gamma
  · rw [if_pos hbal]
    constructor
    · intro hX
      exfalso
      split at hX
      · split at hX
        · simp at hX
        · split at hX
          · simp at hX
          · simp at hX
      · simp at hX
    · intro hR
      exact absurd hbal hR
  · rw [if_neg hbal]
    exact ⟨fun _ => hbal, fun _ => rfl⟩

/-- Witness for C3: the unbalanced block `bUnbal` on the empty chain is
rejected with `InvalidBlockBalance`. -/
theorem C3_local_balance_check_witness :
    (Chain.Blockchain.empty.registerMonetaryBlock Chain.hf0 Chain.bUnbal 0).2 =
      .error .invalidBlockBalance :=
  (C3_local_balance_check Chain.hf0 Chain.Blockchain.empty Chain.bUnbal 0
    Chain.Reachable.init (by decide) (by decide) [] (by decide) Chain.ECp.inf
    (by decide) (0, -5) (by decide) (by decide)).mpr (by decide)

/-! ## Spec-model lemmas for the micro-block revert round trip -/

namespace Chain

theorem MerkleTree.prune_snd_inv (ho : Output → Nat) (t : MerkleTree) (p : MerklePath)
    (o : Output) (h : (t.prune ho p).2 = some o) : t.lookup p = some o := by
  induction t generalizing p with
  | leaf o2 =>
    cases p with
    | nil =>
      simp only [MerkleTree.prune] at h
      cases h
      rfl
    | cons b rest => simp [MerkleTree.prune] at h
  | prunedLeaf h2 => simp [MerkleTree.prune] at h
  | node l r ihl ihr =>
    cases p with
    | nil => simp [MerkleTree.prune] at h
    | cons b rest =>
      cases b
      · simp only [MerkleTree.prune] at h
        simpa [MerkleTree.lookup] using ihl rest h
      · simp only [MerkleTree.prune] at h
        simpa [MerkleTree.lookup] using ihr rest h

end Chain

namespace SpecChain

theorem SBlock.data_setTree (sb : SBlock) (t : Chain.MerkleTree) :
    (sb.setTree t).data.outputs = t := by
  cases sb <;> rfl

theorem SBlock.setTree_restore (sb : SBlock) (t : Chain.MerkleTree) :
    (sb.setTree t).setTree sb.data.outputs = sb := by
  cases sb <;> rfl

theorem undoJournal_nil {κ α : Type} [DecidableEq κ] (m : List (κ × α)) :
    undoJournal m [] = m := rfl

theorem undoJournal_cons {κ α : Type} [DecidableEq κ] (m : List (κ × α))
    (e : κ × Option α) (J : List (κ × Option α)) :
    undoJournal m (e :: J) = setA (undoJournal m J) e.1 e.2 := rfl

theorem undoJournal_congr {κ α : Type} [DecidableEq κ] (J : List (κ × Option α))
    (m1 m2 : List (κ × α)) (h : ∀ q, lookupA m1 q = lookupA m2 q) :
    ∀ q, lookupA (undoJournal m1 J) q = lookupA (undoJournal m2 J) q := by
  induction J with
  | nil => exact h
  | cons e J ih =>
    intro q
    rw [undoJournal_cons, undoJournal_cons, lookupA_setA, lookupA_setA]
    by_cases hq : q = e.1
    · simp [hq]
    · simp only [if_neg hq]
      exact ih q

theorem undoJournal_append {κ α : Type} [DecidableEq κ] (m : List (κ × α))
    (J1 J2 : List (κ × Option α)) :
    undoJournal m (J1 ++ J2) = undoJournal (undoJournal m J2) J1 :=
  List.foldr_append _ _ _ _

theorem pruneInputsM_ix_undo (ho : Chain.Output → Nat) :
    ∀ (l : List Nat) (blocks blocks1 : List SBlock)
      (ix ix1 : List (Nat × Chain.OutputKey)) (prunedL : List PrunedEntry),
      pruneInputsM ho blocks ix l = some (blocks1, ix1, prunedL) →
      ∀ q, lookupA (undoJournal ix1 (prunedL.map (fun e => (e.ohash, some e.key)))) q =
        lookupA ix q := by
  intro l
  induction l with
  | nil =>
    intro blocks blocks1 ix ix1 prunedL h q
    simp only [pruneInputsM] at h
    cases h
    rfl
  | cons h0 rest ih =>
    intro blocks blocks1 ix ix1 prunedL h q
    simp only [pruneInputsM] at h
    split at h
    · cases h
    · rename_i k hk
      split at h
      · rename_i sb hsb
        split at h
        · rename_i tree o hprune
          split at h
          · rename_i bs2 ix2 es2 hrec
            cases h
            simp only [List.map, undoJournal_cons, lookupA_setA]
            by_cases hq : q = h0
            · rw [if_pos hq, hq, hk]
            · rw [if_neg hq]
              rw [ih _ _ _ _ _ hrec q]
              rw [lookupA_setA]
              rw [if_neg hq]
          · cases h
        · cases h
      · cases h

theorem insertOutputsM_ix_undo (bid : Nat) :
    ∀ (ops : List (Nat × Chain.MerklePath)) (ix ix2 : List (Nat × Chain.OutputKey)),
      insertOutputsM bid ix ops = some ix2 →
      ∀ q, lookupA (undoJournal ix2 (ops.map (fun hp => (hp.1, none)))) q =
        lookupA ix q := by
  intro ops
  induction ops with
  | nil =>
    intro ix ix2 h q
    simp only [insertOutputsM] at h
    cases h
    rfl
  | cons hp rest ih =>
    rcases hp with ⟨h0, p0⟩
    intro ix ix2 h q
    simp only [insertOutputsM] at h
    split at h
    · cases h
    · rename_i hfresh
      simp only [List.map, undoJournal_cons, lookupA_setA]
      by_cases hq : q = h0
      · rw [if_pos hq, hq, hfresh]
      · rw [if_neg hq]
        rw [ih _ _ h q, lookupA_setA, if_neg hq]

theorem unstakesJ_undo (ho : Chain.Output → Nat) :
    ∀ (l : List PrunedEntry) (es : List ((Nat × Nat) × Chain.EscrowRecord)),
      ∀ q, lookupA (undoJournal (unstakesJ ho es l).1 (unstakesJ ho es l).2) q =
        lookupA es q := by
  intro l
  induction l with
  | nil => intro es q; rfl
  | cons e rest ih =>
    intro es q
    simp only [unstakesJ]
    split
    · rename_i o heq
      simp only [undoJournal_cons, lookupA_setA]
      by_cases hq : q = (o.validator, ho e.output)
      · rw [if_pos hq, hq]
      · rw [if_neg hq]
        rw [ih _ q, lookupA_setA, if_neg hq]
    · exact ih es q

theorem stakesJ_undo (ho : Chain.Output → Nat) (bonding : Nat) :
    ∀ (l : List Chain.Output) (es : List ((Nat × Nat) × Chain.EscrowRecord)),
      ∀ q, lookupA (undoJournal (stakesJ ho es bonding l).1 (stakesJ ho es bonding l).2) q =
        lookupA es q := by
  intro l
  induction l with
  | nil => intro es q; rfl
  | cons o rest ih =>
    intro es q
    simp only [stakesJ]
    split
    · rename_i so
      simp only [undoJournal_cons, lookupA_setA]
      by_cases hq : q = (so.validator, ho (Chain.Output.stakeOutput so))
      · rw [if_pos hq, hq]
      · rw [if_neg hq]
        rw [ih _ q, lookupA_setA, if_neg hq]
    · exact ih es q

theorem restoreBlocks_cons (bs : List SBlock) (e : PrunedEntry) (l : List PrunedEntry) :
    restoreBlocks bs (e :: l) =
      (match (restoreBlocks bs l).get? e.key.block_id with
        | some sb =>
          (restoreBlocks bs l).set e.key.block_id
            (sb.setTree (sb.data.outputs.restore e.key.path e.output))
        | none => restoreBlocks bs l) := rfl

theorem pruneInputsM_blocks_undo (ho : Chain.Output → Nat) :
    ∀ (l : List Nat) (blocks blocks1 : List SBlock)
      (ix ix1 : List (Nat × Chain.OutputKey)) (prunedL : List PrunedEntry),
      pruneInputsM ho blocks ix l = some (blocks1, ix1, prunedL) →
      restoreBlocks blocks1 prunedL = blocks := by
  intro l
  induction l with
  | nil =>
    intro blocks blocks1 ix ix1 prunedL h
    simp only [pruneInputsM] at h
    cases h
    rfl
  | cons h0 rest ih =>
    intro blocks blocks1 ix ix1 prunedL h
    simp only [pruneInputsM] at h
    split at h
    · cases h
    · rename_i k hk
      split at h
      · rename_i sb hsb
        split at h
        · rename_i tree o hprune
          split at h
          · rename_i bs2 ix2 es2 hrec
            cases h
            have hbid : k.block_id < blocks.length := listGet?_lt_length _ _ _ hsb
            have hstep := ih _ _ _ _ _ hrec
            have hget2 : (blocks.set k.block_id (sb.setTree tree)).get? k.block_id =
                some (sb.setTree tree) := listGet?_set_self blocks k.block_id _ hbid
            simp only [restoreBlocks_cons, hstep, hget2]
            rw [SBlock.data_setTree]
            have hrestore : Chain.MerkleTree.restore tree k.path o = sb.data.outputs := by
              have hlook : sb.data.outputs.lookup k.path = some o :=
                Chain.MerkleTree.prune_snd_inv ho _ _ _ (by rw [hprune])
              have h2 := Chain.MerkleTree.restore_prune ho sb.data.outputs k.path o hlook
              rw [hprune] at h2
              exact h2
            rw [hrestore, SBlock.setTree_restore, List.set_set]
            exact listSet_of_get? blocks k.block_id sb hsb
          · cases h
        · cases h
      · cases h

end SpecChain

namespace SpecChain

/-- Success shape of `applyMicro` (after the previous-hash check). -/
theorem applyMicroChecked_shape (ho : Chain.Output → Nat) (hmb : MicroBlock → Nat)
    (s : MState) (b : MicroBlock) (s2 : MState)
    (h : applyMicro.applyMicroChecked ho hmb s b = .ok s2) :
    ∃ burnedB createdB ops blocks1 index1 prunedL index2,
      lookupA s.block_by_hash (hmb b) = none ∧
      computeBurnedM s b.inputs = .ok burnedB ∧
      checkOutputsM ho s b.outputs.leafs = .ok (createdB, ops) ∧
      pruneInputsM ho s.blocks s.output_by_hash b.inputs =
        some (blocks1, index1, prunedL) ∧
      insertOutputsM s.blocks.length index1 ops = some index2 ∧
      s2 = { blocks := blocks1 ++ [SBlock.micro b
                ⟨prunedL,
                  prunedL.map (fun e => (e.ohash, some e.key)) ++
                    ops.map (fun hp => (hp.1, none)),
                  (unstakesJ ho s.escrow prunedL).2 ++
                    (stakesJ ho (unstakesJ ho s.escrow prunedL).1
                      (b.timestamp + Chain.BONDING_TIME)
                      (b.outputs.leafs.map (fun op => op.1))).2,
                  burnedB, createdB⟩]
             block_by_hash := (hmb b, s.blocks.length) :: s.block_by_hash
             output_by_hash := index2
             escrow := (stakesJ ho (unstakesJ ho s.escrow prunedL).1
               (b.timestamp + Chain.BONDING_TIME)
               (b.outputs.leafs.map (fun op => op.1))).1
             created := s.created + createdB
             burned := s.burned + burnedB
             gamma := s.gamma + b.gamma
             monetary_adjustment := s.monetary_adjustment + b.monetary_adjustment } := by
  simp only [applyMicro.applyMicroChecked] at h
  split at h
  · cases h
  · rename_i x0 hcol
    split at h
    · cases h
    · rename_i x1 burnedB hburn
      split at h
      · cases h
      · rename_i x2 createdB ops hout
        split at h
        · split at h
          · split at h
            · cases h
            · rename_i hlocal hglobal x3 blocks1 index1 prunedL hprune
              split at h
              · cases h
              · rename_i x4 index2 hins
                simp only [Except.ok.injEq] at h
                exact ⟨burnedB, createdB, ops, blocks1, index1, prunedL, index2,
                  hcol, hburn, hout, hprune, hins, h.symm⟩
          · cases h
        · cases h

theorem applyMicro_to_checked (ho : Chain.Output → Nat) (hmb : MicroBlock → Nat)
    (s : MState) (b : MicroBlock) (s2 : MState)
    (h : applyMicro ho hmb s b = .ok s2) :
    applyMicro.applyMicroChecked ho hmb s b = .ok s2 := by
  simp only [applyMicro] at h
  split at h
  · split at h
    · exact h
    · cases h
  · exact h

end SpecChain

/-! ## Claim C5: micro-block revert round trip (spec-modelled) -/

/-- C5 (P6): reverting a freshly applied micro block restores the chain tail,
the UTXO index, the escrow records and the monetary accumulators to the
pre-apply state (maps compared extensionally, everything else literally);
`revert_micro` fails on an empty chain or when the tail is a finalized
(macro) block. -/
theorem C5_revert_round_trip (ho : Chain.Output → Nat)
    (hmb : SpecChain.MicroBlock → Nat) :
    (∀ (s : SpecChain.MState) (b : SpecChain.MicroBlock) (s2 : SpecChain.MState),
      SpecChain.applyMicro ho hmb s b = .ok s2 →
      ∃ rb s3, SpecChain.revertMicro ho hmb s2 = .ok (s3, rb) ∧
        s3.blocks = s.blocks ∧
        (∀ q, lookupA s3.output_by_hash q = lookupA s.output_by_hash q) ∧
        (∀ q, lookupA s3.escrow q = lookupA s.escrow q) ∧
        s3.block_by_hash = s.block_by_hash ∧
        s3.created = s.created ∧ s3.burned = s.burned ∧ s3.gamma = s.gamma ∧
        s3.monetary_adjustment = s.monetary_adjustment) ∧
    (∀ s : SpecChain.MState, s.blocks = [] →
      SpecChain.revertMicro ho hmb s = .error .revertEmpty) ∧
    (∀ (s : SpecChain.MState) (bf : SpecChain.MicroBlock),
      s.blocks.getLast? = some (.finalized bf) →
      SpecChain.revertMicro ho hmb s = .error .revertFinalTail) := by
  refine ⟨?_, ?_, ?_⟩
  · intro s b s2 happly
    rcases SpecChain.applyMicroChecked_shape ho hmb s b s2
      (SpecChain.applyMicro_to_checked ho hmb s b s2 happly) with
      ⟨burnedB, createdB, ops, blocks1, index1, prunedL, index2,
        hcol, hburn, hout, hprune, hins, hshape⟩
    subst hshape
    simp only [SpecChain.revertMicro, List.getLast?_concat, List.dropLast_concat]
    refine ⟨_, _, rfl, ?_, ?_, ?_, ?_, ?_, ?_, ?_, ?_⟩
    · -- blocks are restored
      exact SpecChain.pruneInputsM_blocks_undo ho b.inputs s.blocks blocks1
        s.output_by_hash index1 prunedL hprune
    · -- the UTXO index is restored (extensionally)
      intro q
      show lookupA (SpecChain.undoJournal index2
        (prunedL.map (fun e => (e.ohash, some e.key)) ++
          ops.map (fun hp => (hp.1, none)))) q = lookupA s.output_by_hash q
      rw [SpecChain.undoJournal_append]
      have hIns := SpecChain.insertOutputsM_ix_undo s.blocks.length ops index1 index2 hins
      have hCongr := SpecChain.undoJournal_congr
        (prunedL.map (fun e => (e.ohash, some e.key)))
        (SpecChain.undoJournal index2 (ops.map (fun hp => (hp.1, none)))) index1 hIns
      rw [hCongr q]
      exact SpecChain.pruneInputsM_ix_undo ho b.inputs s.blocks blocks1
        s.output_by_hash index1 prunedL hprune q
    · -- the escrow is restored (extensionally)
      intro q
      show lookupA (SpecChain.undoJournal
        (SpecChain.stakesJ ho (SpecChain.unstakesJ ho s.escrow prunedL).1
          (b.timestamp + Chain.BONDING_TIME) (b.outputs.leafs.map (fun op => op.1))).1
        ((SpecChain.unstakesJ ho s.escrow prunedL).2 ++
          (SpecChain.stakesJ ho (SpecChain.unstakesJ ho s.escrow prunedL).1
            (b.timestamp + Chain.BONDING_TIME)
            (b.outputs.leafs.map (fun op => op.1))).2)) q = lookupA s.escrow q
      rw [SpecChain.undoJournal_append]
      have hStakes := SpecChain.stakesJ_undo ho (b.timestamp + Chain.BONDING_TIME)
        (b.outputs.leafs.map (fun op => op.1)) (SpecChain.unstakesJ ho s.escrow prunedL).1
      have hCongr := SpecChain.undoJournal_congr
        (SpecChain.unstakesJ ho s.escrow prunedL).2 _ _ hStakes
      rw [hCongr q]
      exact SpecChain.unstakesJ_undo ho prunedL s.escrow q
    · -- block_by_hash is restored
      show removeA ((hmb b, s.blocks.length) :: s.block_by_hash) (hmb b) = s.block_by_hash
      simp only [removeA, if_pos rfl]
      exact removeA_of_lookupA_none s.block_by_hash (hmb b) hcol
    · exact add_sub_cancel_right s.created createdB
    · exact add_sub_cancel_right s.burned burnedB
    · exact add_sub_cancel_right s.gamma b.gamma
    · exact add_sub_cancel_right s.monetary_adjustment b.monetary_adjustment
  · intro s hempty
    simp only [SpecChain.revertMicro, hempty]
    rfl
  · intro s bf htail
    simp only [SpecChain.revertMicro, htail]

/-- Witness for C5: the concrete apply/revert pair on `ms0`/`mb0`, plus the
two failure modes. -/
theorem C5_revert_round_trip_witness :
    (∃ rb s3, SpecChain.revertMicro Chain.hf0.out SpecChain.hmb0 SpecChain.msApplied =
        .ok (s3, rb) ∧
      s3.blocks = SpecChain.ms0.blocks ∧
      (∀ q, lookupA s3.output_by_hash q = lookupA SpecChain.ms0.output_by_hash q) ∧
      (∀ q, lookupA s3.escrow q = lookupA SpecChain.ms0.escrow q) ∧
      s3.block_by_hash = SpecChain.ms0.block_by_hash ∧
      s3.created = SpecChain.ms0.created ∧ s3.burned = SpecChain.ms0.burned ∧
      s3.gamma = SpecChain.ms0.gamma ∧
      s3.monetary_adjustment = SpecChain.ms0.monetary_adjustment) ∧
    SpecChain.revertMicro Chain.hf0.out SpecChain.hmb0 SpecChain.ms0 =
      .error .revertEmpty ∧
    SpecChain.revertMicro Chain.hf0.out SpecChain.hmb0
      { SpecChain.ms0 with blocks := [.finalized SpecChain.mb0] } =
      .error .revertFinalTail :=
  ⟨(C5_revert_round_trip Chain.hf0.out SpecChain.hmb0).1 SpecChain.ms0 SpecChain.mb0
      SpecChain.msApplied (by decide),
    (C5_revert_round_trip Chain.hf0.out SpecChain.hmb0).2.1 SpecChain.ms0 rfl,
    (C5_revert_round_trip Chain.hf0.out SpecChain.hmb0).2.2
      { SpecChain.ms0 with blocks := [.finalized SpecChain.mb0] } SpecChain.mb0 rfl⟩

/-! ## Claim C7: minimum fee check -/

namespace NodeTx

theorem validateInputs_ne_tooLowFee (chainOutput : Nat → Except String (Option Chain.Output))
    (m : Mempool) (tx_hash : Nat) :
    ∀ (l : List Nat) (sb : List (Nat × Int)) (e : NodeTxError),
      validateInputs chainOutput m tx_hash l sb = .error e →
      ∀ th mn gt, e ≠ .tooLowFee th mn gt := by
  intro l
  induction l with
  | nil =>
    intro sb e h
    simp [validateInputs] at h
  | cons h0 rest ih =>
    intro sb e h th mn gt hc
    subst hc
    simp only [validateInputs] at h
    split at h
    · simp at h
    · simp at h
    · split at h
      · simp at h
      · rcases hm : validateInputs chainOutput m tx_hash rest
            (match _ with
              | Chain.Output.stakeOutput o => addStake sb o.validator (-o.amount)
              | Chain.Output.paymentOutput _ => sb) with e2 | v2
        · rw [hm] at h
          simp only [Except.map] at h
          cases h
          exact ih _ _ (by rw [hm]) th mn gt rfl
        · rw [hm] at h
          simp [Except.map] at h

theorem validateOutputs_ne_tooLowFee (ho : Chain.Output → Nat)
    (chainContains : Nat → Bool) (m : Mempool) (tx_hash : Nat) :
    ∀ (l : List Chain.Output) (sb : List (Nat × Int)) (e : NodeTxError),
      validateOutputs ho chainContains m tx_hash l sb = .error e →
      ∀ th mn gt, e ≠ .tooLowFee th mn gt := by
  intro l
  induction l with
  | nil =>
    intro sb e h
    simp [validateOutputs] at h
  | cons o rest ih =>
    intro sb e h th mn gt hc
    subst hc
    simp only [validateOutputs] at h
    split at h
    · simp at h
    · exact ih _ _ h th mn gt rfl

end NodeTx

/-- C7: for a transaction whose hash is not in the mempool,
`validate_transaction` returns `TooLowFee(hash, min_fee, fee)` exactly when
`fee < min_fee`, with `min_fee` the per-variant sum over the outputs; and
when the fee is sufficient no `TooLowFee` error (with any arguments) is ever
produced. -/
theorem C7_minimum_fee (ho : Chain.Output → Nat) (htx : NodeTx.Transaction → Nat)
    (chainOutput : Nat → Except String (Option Chain.Output))
    (chainContains : Nat → Bool)
    (txValidate : NodeTx.Transaction → List Chain.Output → Except String Unit)
    (stakingBalance : List (Nat × Int) → Except String Unit)
    (tx : NodeTx.Transaction) (m : NodeTx.Mempool) (payment_fee stake_fee : Int)
    (hmempool : m.containsTx (htx tx) = false) :
    (NodeTx.validate_transaction ho htx chainOutput chainContains txValidate
        stakingBalance tx m payment_fee stake_fee =
      .error (.tooLowFee (htx tx)
        (NodeTx.minFee payment_fee stake_fee tx.body.txouts) tx.body.fee) ↔
      tx.body.fee < NodeTx.minFee payment_fee stake_fee tx.body.txouts) ∧
    (NodeTx.minFee payment_fee stake_fee tx.body.txouts ≤ tx.body.fee →
      ∀ th mn gt, NodeTx.validate_transaction ho htx chainOutput chainContains
        txValidate stakingBalance tx m payment_fee stake_fee ≠
          .error (.tooLowFee th mn gt)) := by
  have hne : ∀ e, e ≠ NodeTx.NodeTxError.alreadyExists (htx tx) →
      (∀ th mn gt, e ≠ .tooLowFee th mn gt) →
      True := fun _ _ _ => trivial
  constructor
  · simp only [NodeTx.validate_transaction, hmempool, Bool.false_eq_true, if_false]
    by_cases hlt : tx.body.fee < NodeTx.minFee payment_fee stake_fee tx.body.txouts
    · rw [if_pos hlt]
      exact ⟨fun _ => hlt, fun _ => rfl⟩
    · rw [if_neg hlt]
      constructor
      · intro hX
        exfalso
        split at hX
        · rename_i e2 hE
          simp only [Except.error.injEq] at hX
          exact NodeTx.validateInputs_ne_tooLowFee chainOutput m (htx tx) _ _ _ hE
            (htx tx) _ _ hX
        · split at hX
          · rename_i e2 hE
            simp only [Except.error.injEq] at hX
            exact NodeTx.validateOutputs_ne_tooLowFee ho chainContains m (htx tx) _ _ _
              hE (htx tx) _ _ hX
          · split at hX
            · simp at hX
            · split at hX
              · simp at hX
              · simp at hX
      · intro hR
        exact absurd hR hlt
  · intro hge th mn gt hX
    simp only [NodeTx.validate_transaction, hmempool, Bool.false_eq_true, if_false] at hX
    rw [if_neg (by omega : ¬ tx.body.fee <
      NodeTx.minFee payment_fee stake_fee tx.body.txouts)] at hX
    split at hX
    · rename_i e2 hE
      simp only [Except.error.injEq] at hX
      exact NodeTx.validateInputs_ne_tooLowFee chainOutput m (htx tx) _ _ _ hE
        th mn gt hX
    · split at hX
      · rename_i e2 hE
        simp only [Except.error.injEq] at hX
        exact NodeTx.validateOutputs_ne_tooLowFee ho chainContains m (htx tx) _ _ _ hE
          th mn gt hX
      · split at hX
        · simp at hX
        · split at hX
          · simp at hX
          · simp at hX

/-- Witness for C7: a one-output transaction with `fee = payment_fee − 1` is
rejected as `TooLowFee`. -/
theorem C7_minimum_fee_witness :
    NodeTx.validate_transaction Chain.hf0.out (fun _ => 42) (fun _ => .ok none)
      (fun _ => false) (fun _ _ => .ok ()) (fun _ => .ok ())
      ⟨⟨[], [Chain.o0], 0, 0⟩⟩ ⟨[], [], []⟩ 1 0 =
      .error (.tooLowFee 42 1 0) :=
  (C7_minimum_fee Chain.hf0.out (fun _ => 42) (fun _ => .ok none) (fun _ => false)
    (fun _ _ => .ok ()) (fun _ => .ok ()) ⟨⟨[], [Chain.o0], 0, 0⟩⟩ ⟨[], [], []⟩ 1 0
    (by decide)).1.mpr (by decide)

/-! ### Wallet notification processing (C8) -/

namespace Wallet

theorem onOutputPruned_unspent (st : AccountState) (h q : Nat) :
    lookupA (onOutputPruned st h).database.unspent q =
      if q = h then none else lookupA st.database.unspent q := by
  unfold onOutputPruned
  cases hv : lookupA st.database.unspent h with
  | none =>
    by_cases hq : q = h
    · simp [hq, hv]
    · simp [hq]
  | some v =>
    cases v <;> simp [AccountState.notify, lookupA_removeA]

theorem prunedFold_unspent (l : List Nat) (st : AccountState) (q : Nat) :
    lookupA (l.foldl onOutputPruned st).database.unspent q =
      if q ∈ l then none else lookupA st.database.unspent q := by
  induction l generalizing st with
  | nil => simp
  | cons h0 rest ih =>
    simp only [List.foldl_cons, ih, onOutputPruned_unspent, List.mem_cons]
    by_cases h1 : q ∈ rest
    · simp [h1]
    · by_cases h2 : q = h0 <;> simp [h1, h2]

theorem onOutputCreated_not_owned (hw : WOutput → Nat) (st : AccountState)
    (epoch : Nat) (o : WOutput) (ts : Nat)
    (h : ownedValue st.account_pkey st.stake_epochs epoch o = none) :
    onOutputCreated hw st epoch o ts = some st := by
  cases o with
  | payment p =>
    simp only [ownedValue] at h
    cases hd : decryptPayload st.account_pkey p with
    | none => simp [onOutputCreated, hd]
    | some a => simp [hd] at h
  | publicPayment p =>
    simp only [ownedValue] at h
    split at h
    · simp at h
    · rename_i hne
      simp [onOutputCreated, hne]
  | stake p =>
    simp only [ownedValue] at h
    split at h
    · simp at h
    · rename_i hne
      simp [onOutputCreated, hne]

theorem onOutputCreated_owned (hw : WOutput → Nat) (st : AccountState)
    (epoch : Nat) (o : WOutput) (ts : Nat) (v : OutputValue)
    (hov : ownedValue st.account_pkey st.stake_epochs epoch o = some v)
    (hnn : o.nonnegAmount)
    (hfresh : lookupA st.database.unspent (hw o) = none) :
    ∃ st', onOutputCreated hw st epoch o ts = some st' ∧
      st'.account_pkey = st.account_pkey ∧
      st'.stake_epochs = st.stake_epochs ∧
      st'.database.unspent = (hw o, v) :: st.database.unspent := by
  cases o with
  | payment p =>
    simp only [ownedValue] at hov
    cases hd : decryptPayload st.account_pkey p with
    | none => simp [hd] at hov
    | some a =>
      rw [hd] at hov
      simp only [Option.some.injEq] at hov
      have ha : a = p.amount := by
        unfold decryptPayload at hd
        split at hd
        · exact (Option.some.injEq _ _ ▸ hd).symm
        · simp at hd
      simp only [WOutput.nonnegAmount] at hnn
      have hlt : ¬ a < 0 := by omega
      refine ⟨⟨st.account_pkey, st.stake_epochs,
          ⟨(hw (.payment p), OutputValue.paymentV p) :: st.database.unspent,
            st.database.incomming ++ [(ts, OutputValue.paymentV p)], true⟩,
          st.notifications ++ [.received (hw (.payment p)) a]⟩, ?_, rfl, rfl, ?_⟩
      · simp only [onOutputCreated, hd, if_neg hlt]
        rw [show lookupA ({ st with database :=
            { st.database with
                current_epoch_balance_changed := true
                incomming := st.database.incomming ++
                  [(ts, OutputValue.paymentV p)] } } : AccountState).database.unspent
            (hw (.payment p)) = lookupA st.database.unspent (hw (.payment p)) from rfl,
          hfresh]
        rfl
      · rw [← hov]
  | publicPayment p =>
    simp only [ownedValue] at hov
    split at hov
    · rename_i heq
      simp only [Option.some.injEq] at hov
      simp only [WOutput.nonnegAmount] at hnn
      have hlt : ¬ p.amount < 0 := by omega
      refine ⟨⟨st.account_pkey, st.stake_epochs,
          ⟨(hw (.publicPayment p), OutputValue.publicPaymentV p) :: st.database.unspent,
            st.database.incomming ++ [(ts, OutputValue.publicPaymentV p)], true⟩,
          st.notifications ++ [.receivedPublic (hw (.publicPayment p)) p.amount]⟩,
        ?_, rfl, rfl, ?_⟩
      · simp only [onOutputCreated, heq, ne_eq, not_true_eq_false, if_false, if_neg hlt]
        rw [show lookupA ({ st with database :=
            { st.database with
                current_epoch_balance_changed := true
                incomming := st.database.incomming ++
                  [(ts, OutputValue.publicPaymentV p)] } } : AccountState).database.unspent
            (hw (.publicPayment p)) = lookupA st.database.unspent (hw (.publicPayment p))
            from rfl,
          hfresh]
        rfl
      · rw [← hov]
    · simp at hov
  | stake p =>
    simp only [ownedValue] at hov
    split at hov
    · rename_i heq
      simp only [Option.some.injEq] at hov
      refine ⟨⟨st.account_pkey, st.stake_epochs,
          ⟨(hw (.stake p), OutputValue.stakeV p (epoch + st.stake_epochs)) ::
              st.database.unspent,
            st.database.incomming, true⟩,
          st.notifications ++ [.staked (hw (.stake p)) p.amount]⟩, ?_, rfl, rfl, ?_⟩
      · simp only [onOutputCreated, heq, ne_eq, not_true_eq_false, if_false]
        rw [show lookupA ({ st with database :=
            { st.database with current_epoch_balance_changed := true } } :
            AccountState).database.unspent
            (hw (.stake p)) = lookupA st.database.unspent (hw (.stake p)) from rfl,
          hfresh]
        rfl
      · rw [← hov]
    · simp at hov

theorem createdLookup_eq_none (hw : WOutput → Nat) (pk se epoch : Nat)
    (l : List WOutput) (q : Nat)
    (h : ∀ o ∈ l, hw o = q → ownedValue pk se epoch o = none) :
    createdLookup hw pk se epoch l q = none := by
  induction l with
  | nil => rfl
  | cons o rest ih =>
    simp only [createdLookup]
    by_cases hq : hw o = q
    · rw [if_pos hq, h o (by simp) hq]
      exact ih (fun o2 hm hh => h o2 (by simp [hm]) hh)
    · rw [if_neg hq]
      exact ih (fun o2 hm hh => h o2 (by simp [hm]) hh)

theorem createdAll_unspent (hw : WOutput → Nat) (epoch ts : Nat) :
    ∀ (outputs : List WOutput) (st : AccountState),
    (∀ o ∈ outputs, ownedValue st.account_pkey st.stake_epochs epoch o ≠ none →
      lookupA st.database.unspent (hw o) = none) →
    (∀ o ∈ outputs, ownedValue st.account_pkey st.stake_epochs epoch o ≠ none →
      o.nonnegAmount) →
    List.Pairwise (fun o1 o2 =>
      ownedValue st.account_pkey st.stake_epochs epoch o1 ≠ none →
      ownedValue st.account_pkey st.stake_epochs epoch o2 ≠ none → hw o1 ≠ hw o2) outputs →
    ∃ st', createdAll hw st epoch ts outputs = some st' ∧
      st'.account_pkey = st.account_pkey ∧ st'.stake_epochs = st.stake_epochs ∧
      ∀ q, lookupA st'.database.unspent q =
        match createdLookup hw st.account_pkey st.stake_epochs epoch outputs q with
        | some w => some w
        | none => lookupA st.database.unspent q := by
  intro outputs
  induction outputs with
  | nil =>
    intro st _ _ _
    exact ⟨st, rfl, rfl, rfl, fun q => rfl⟩
  | cons o rest ih =>
    intro st h1 h2 h3
    obtain ⟨hhead, htail⟩ := List.pairwise_cons.mp h3
    cases hov : ownedValue st.account_pkey st.stake_epochs epoch o with
    | none =>
      obtain ⟨st', hrun, hpk, hse, hq⟩ := ih st
        (fun o2 hm => h1 o2 (List.mem_cons_of_mem _ hm))
        (fun o2 hm => h2 o2 (List.mem_cons_of_mem _ hm)) htail
      refine ⟨st', ?_, hpk, hse, ?_⟩
      · simp only [createdAll, onOutputCreated_not_owned hw st epoch o ts hov]
        exact hrun
      · intro q
        rw [hq q]
        by_cases hh : hw o = q
        · simp only [createdLookup, if_pos hh, hov]
        · simp only [createdLookup, if_neg hh]
    | some v =>
      have hvne : ownedValue st.account_pkey st.stake_epochs epoch o ≠ none := by
        simp [hov]
      have hnn := h2 o (List.mem_cons_self _ _) hvne
      have hfresh := h1 o (List.mem_cons_self _ _) hvne
      obtain ⟨st1, hrun1, hpk1, hse1, huns1⟩ :=
        onOutputCreated_owned hw st epoch o ts v hov hnn hfresh
      have hlu1 : ∀ q, lookupA st1.database.unspent q =
          if hw o = q then some v else lookupA st.database.unspent q := by
        intro q
        rw [huns1]
        simp [lookupA]
      obtain ⟨st', hrun, hpk, hse, hq⟩ := ih st1
        (fun o2 hm hne => by
          rw [hpk1, hse1] at hne
          rw [hlu1]
          rw [if_neg (hhead o2 hm hvne hne)]
          exact h1 o2 (List.mem_cons_of_mem _ hm) hne)
        (fun o2 hm hne => h2 o2 (List.mem_cons_of_mem _ hm) (by rwa [hpk1, hse1] at hne))
        (by rw [hpk1, hse1]; exact htail)
      refine ⟨st', ?_, by rw [hpk, hpk1], by rw [hse, hse1], ?_⟩
      · simp only [createdAll, hrun1]
        exact hrun
      · intro q
        rw [hq q, hpk1, hse1, hlu1 q]
        by_cases hh : hw o = q
        · have hrnone : createdLookup hw st.account_pkey st.stake_epochs epoch rest q =
              none := by
            apply createdLookup_eq_none
            intro o2 hm hh2
            cases hov2 : ownedValue st.account_pkey st.stake_epochs epoch o2 with
            | none => rfl
            | some w =>
              exact absurd (hh.trans hh2.symm) (hhead o2 hm hvne (by simp [hov2]))
          simp only [createdLookup, if_pos hh, hov, hrnone]
        · simp only [createdLookup, if_neg hh]

end Wallet

/-- C8: wallet processing order.  For every chain notification the account
handler processes all outputs (insertions into the unspent store) before any
input (removal from the unspent store): under the assert-freedom hypotheses
(owned outputs are fresh, owned amounts are non-negative, owned hashes are
pairwise distinct — no hypothesis relates the created outputs to the removed
inputs) the handler succeeds, and the resulting unspent store maps a hash to
`none` whenever it is among the notification's inputs — even if it is also
among the created outputs, which is exactly the create-then-annihilate case —
and otherwise to the notification's owned output under that hash, falling back
to the original store. -/
theorem C8_wallet_order (hw : Wallet.WOutput → Nat) (st : Wallet.AccountState)
    (n : Wallet.ChainNotification)
    (h1 : ∀ o ∈ n.outputsOf,
      Wallet.ownedValue st.account_pkey st.stake_epochs n.epochOf o ≠ none →
      lookupA st.database.unspent (hw o) = none)
    (h2 : ∀ o ∈ n.outputsOf,
      Wallet.ownedValue st.account_pkey st.stake_epochs n.epochOf o ≠ none →
      o.nonnegAmount)
    (h3 : List.Pairwise (fun o1 o2 =>
      Wallet.ownedValue st.account_pkey st.stake_epochs n.epochOf o1 ≠ none →
      Wallet.ownedValue st.account_pkey st.stake_epochs n.epochOf o2 ≠ none →
      hw o1 ≠ hw o2) n.outputsOf) :
    ∃ st', Wallet.handleOutputsChanged hw st n = some st' ∧
      ∀ q, lookupA st'.database.unspent q =
        if q ∈ n.inputsOf then none
        else
          match Wallet.createdLookup hw st.account_pkey st.stake_epochs n.epochOf
              n.outputsOf q with
          | some w => some w
          | none => lookupA st.database.unspent q := by
  obtain ⟨st1, hrun, hpk, hse, hq⟩ :=
    Wallet.createdAll_unspent hw n.epochOf n.timestampOf n.outputsOf st h1 h2 h3
  have hfin : ∀ (s : Wallet.AccountState) (b : Bool),
      (if b then { s with database :=
          { s.database with current_epoch_balance_changed := false } }
       else s).database.unspent = s.database.unspent := by
    intro s b
    cases b <;> rfl
  have hbal : ∀ (s : Wallet.AccountState) (sv : Int),
      (if sv ≠ s.database.balance
       then s.notify (.balanceChanged s.database.balance)
       else s).database.unspent = s.database.unspent := by
    intro s sv
    split <;> rfl
  unfold Wallet.handleOutputsChanged Wallet.onOutputsChanged
  rw [hrun]
  refine ⟨_, rfl, ?_⟩
  intro q
  rw [hbal, hfin, Wallet.prunedFold_unspent]
  by_cases hin : q ∈ n.inputsOf
  · simp only [if_pos hin]
  · simp only [if_neg hin]
    rw [hq q]

/-- Witness for C8: an output created and annihilated inside the same
committed macro block (its hash appears both as a created output and as an
input) is handled without error, and ends up absent from the unspent store. -/
theorem C8_wallet_order_witness :
    ∃ st', Wallet.handleOutputsChanged Wallet.hw0
        ⟨1, 2, ⟨[], [], false⟩, []⟩
        (.committed 5 [1] [.payment ⟨1, 10⟩] 7) = some st' ∧
      lookupA st'.database.unspent 1 = none := by
  obtain ⟨st', hrun, hq⟩ := C8_wallet_order Wallet.hw0 ⟨1, 2, ⟨[], [], false⟩, []⟩
    (.committed 5 [1] [.payment ⟨1, 10⟩] 7) (by decide) (by decide) (by decide)
  refine ⟨st', hrun, ?_⟩
  rw [hq 1]
  decide

/-- C9: sealed-account behaviour.  Every request leaves the sealed service's
state unchanged; any request other than `Unseal` / `AccountInfo` / `Disable`
is answered with the error string "Account is sealed" and the service stays
sealed; `Unseal` answers `Unsealed` and unseals exactly when the key file
loads under the given password and reports the load error otherwise;
`AccountInfo` returns the account and network public keys; `Disable` sends no
response and terminates the service. -/
theorem C9_sealed_requests (loadKey : String → Except String Nat)
    (st : Sealed.SealedState) (req : Sealed.AccountRequest) :
    (Sealed.handleSealedRequest loadKey st req).2.2 = st ∧
    (req.isSealedSpecial = false →
      Sealed.handleSealedRequest loadKey st req =
        (some (.error "Account is sealed"), .stillSealed, st)) ∧
    (∀ password, req = .unseal password →
      Sealed.handleSealedRequest loadKey st req =
        match loadKey password with
        | .ok k => (some .unsealed, .becomeUnsealed k, st)
        | .error e => (some (.error e), .stillSealed, st)) ∧
    (req = .account_info →
      Sealed.handleSealedRequest loadKey st req =
        (some (.accountInfoR st.account_pkey st.network_pkey), .stillSealed, st)) ∧
    (req = .disable →
      Sealed.handleSealedRequest loadKey st req = (none, .terminated, st)) := by
  cases req <;>
    simp [Sealed.handleSealedRequest, Sealed.AccountRequest.isSealedSpecial]
  rename_i password
  cases hk : loadKey password <;> simp [hk]

/-- Witness for C9: a balance request to a sealed account is answered with
the "Account is sealed" error and changes nothing. -/
theorem C9_sealed_requests_witness :
    Sealed.handleSealedRequest (fun _ => .error "bad password") ⟨10, 11, 12, 13, 14⟩
      .balance_info =
      (some (.error "Account is sealed"), .stillSealed, ⟨10, 11, 12, 13, 14⟩) :=
  (C9_sealed_requests (fun _ => .error "bad password") ⟨10, 11, 12, 13, 14⟩
    .balance_info).2.1 rfl
